import Mathlib

/-!
# Work-graph scheduler: model and verification

The repository's execution core (`packages/aws-cdk/lib/deploy.ts` and
`packages/aws-cdk/lib/util/work-graph.ts`) turns a flat list of artifacts
(stacks and assets) into a dependency graph of work nodes and executes it
under a concurrency bound.  Only the test suite of that core is present in
the repository snapshot, so the core itself is modelled from the
specification below, and validated against every scenario of
`packages/aws-cdk/test/deploy.test.ts`.
-/

/-- Modelled from the spec: artifact kind, `stack` or `asset`
(the source distinguishes the two by symbol brands on the artifact). -/
inductive ArtKind where
  | stack
  | asset
deriving DecidableEq, Repr

/-- Modelled from the spec: a dependency entry of an artifact.  In the test
suite (`createArtifact`), a dependency is itself a placeholder artifact
object carrying an id and a kind brand; resolution uses only the id. -/
structure DepRef where
  id : String
  kind : ArtKind
deriving DecidableEq, Repr

/-- Modelled from the spec: an input artifact.  `name` and `displayName`
are the fields the test suite repurposes for action duration and action
error; the graph builder never reads them (they drive the out-of-scope
action callbacks). -/
structure Artifact where
  id : String
  kind : ArtKind
  dependencies : List DepRef
  name : Nat
  displayName : Option String
deriving DecidableEq, Repr

/-- Modelled from the spec: the kind of a work node, selecting which of the
three caller-supplied actions it is dispatched to. -/
inductive WorkKind where
  | deployStack
  | buildAsset
  | publishAsset
deriving DecidableEq, Repr

/-- Modelled from the spec: a scheduling unit.  `deps` are resolved
in-graph node ids; `seq` records the input-derived position used for
deterministic FIFO dispatch. -/
structure WorkNode where
  id : String
  kind : WorkKind
  deps : List String
  seq : Nat
deriving DecidableEq, Repr

/-- Modelled from the spec: resolve one dependency entry against the input
artifact list, by id only.  A dependency on a stack resolves to that
stack's node, a dependency on an asset resolves to the asset's `-publish`
node, and a dangling id (no artifact selected with that id) is dropped. -/
def resolveDep (arts : List Artifact) (d : DepRef) : Option String :=
  match arts.find? (fun a => a.id == d.id) with
  | some a =>
    match a.kind with
    | ArtKind.stack => some a.id
    | ArtKind.asset => some (a.id ++ "-publish")
  | none => none

/-- Modelled from the spec: the work nodes derived from the artifact at
input position `i`.  A stack maps to a single `deploy-stack` node; an
asset expands into `A-build` and `A-publish` with the implicit edge
`A-publish` depends-on `A-build`, the asset's own dependencies attaching
to the `-build` node.  Sequence numbers are doubled input positions so the
`-publish` node sits immediately after its `-build` node. -/
def artifactNodes (arts : List Artifact) (i : Nat) (a : Artifact) : List WorkNode :=
  match a.kind with
  | ArtKind.stack =>
    [⟨a.id, WorkKind.deployStack, a.dependencies.filterMap (resolveDep arts), 2 * i⟩]
  | ArtKind.asset =>
    [⟨a.id ++ "-build", WorkKind.buildAsset, a.dependencies.filterMap (resolveDep arts), 2 * i⟩,
     ⟨a.id ++ "-publish", WorkKind.publishAsset, [a.id ++ "-build"], 2 * i + 1⟩]

/-- Modelled from the spec: all work nodes of the graph, in input order. -/
def nodesOf (arts : List Artifact) : List WorkNode :=
  (arts.enum.map (fun p => artifactNodes arts p.1 p.2)).flatten

/-- One dependency step of the graph: `DepStep g x d` holds when the node
with id `x` lists `d` among its resolved dependencies. -/
inductive DepStep (g : List WorkNode) : String → String → Prop where
  | mk : ∀ n, n ∈ g → ∀ d, d ∈ n.deps → DepStep g n.id d

/-- The dependency relation of `g` contains a cycle. -/
def HasCycle (g : List WorkNode) : Prop :=
  ∃ x, Relation.TransGen (DepStep g) x x

/-- All of `xs` occur in `ys`. -/
def allMem (xs ys : List String) : Bool :=
  xs.all (fun x => ys.contains x)

/-- Modelled from the spec: one Kahn round — nodes whose dependencies have
all been removed already are removable. -/
def kahnReady (done : List String) (n : WorkNode) : Bool :=
  allMem n.deps done

/-- Modelled from the spec: the construction-time cycle check, as repeated
removal of nodes with no unsatisfied dependencies.  Returns the removal
order on success and `none` when stuck on a cycle. -/
def kahnLoop : Nat → List String → List WorkNode → Option (List String)
  | 0, done, rem => if rem.isEmpty then some done else none
  | fuel + 1, done, rem =>
    if rem.isEmpty then some done
    else
      let ready := rem.filter (kahnReady done)
      if ready.isEmpty then none
      else kahnLoop fuel (done ++ ready.map (fun n => n.id))
        (rem.filter (fun n => !(kahnReady done n)))

/-- Modelled from the spec: construction-time error taxonomy. -/
inductive BuildErr where
  | cycleError
deriving DecidableEq, Repr

/-- Modelled from the spec: `build` turns the artifact list into the work
graph, failing with `CycleError` when the resolved dependency relation has
a cycle. -/
def build (arts : List Artifact) : Except BuildErr (List WorkNode) :=
  let ns := nodesOf arts
  match kahnLoop (ns.length + 1) [] ns with
  | some _ => Except.ok ns
  | none => Except.error BuildErr.cycleError

/-- Modelled from the spec: an observable scheduling event — an action
invocation (dispatch), a successful completion, or a failure. -/
inductive Event where
  | dispatchEv (n : WorkNode)
  | completeEv (i : String)
  | failEv (i : String) (msg : String)
deriving DecidableEq, Repr

/-- Modelled from the spec: the coordinator's mutable state.  `trace` is
the chronological event log; `running` pairs each running node with its
finish time; `now` is the simulated clock. -/
structure ExecState where
  pending : List WorkNode
  queue : List WorkNode
  running : List (WorkNode × Nat)
  doneIds : List String
  failIds : List String
  firstErr : Option String
  trace : List Event
  now : Nat
deriving Repr

/-- A node is ready once every dependency is completed. -/
def readyNow (done : List String) (n : WorkNode) : Bool :=
  n.deps.all (fun d => done.contains d)

/-- Modelled from the spec: the eager dispatch phase — while no failure
has been recorded and a worker slot is free, dequeue the front ready node,
mark it running and invoke its action.  The list argument is the ready
queue being consumed. -/
def dispatchPhase (c : Nat) (dur : String → Nat) : List WorkNode → ExecState → ExecState
  | [], s => s
  | n :: rest, s =>
    if s.firstErr = none ∧ s.running.length < c then
      dispatchPhase c dur rest
        { s with
          queue := rest,
          running := s.running ++ [(n, s.now + dur n.id)],
          trace := s.trace ++ [Event.dispatchEv n] }
    else s

/-- Modelled from the spec: dispatch as many ready nodes as free slots. -/
def dispatchAll (c : Nat) (dur : String → Nat) (s : ExecState) : ExecState :=
  dispatchPhase c dur s.queue s

/-- Pick the running entry with the earliest finish time, ties resolved in
favour of the earliest-dispatched entry; returns it and the remaining
running list in order. -/
def pickEarliest : List (WorkNode × Nat) → Option ((WorkNode × Nat) × List (WorkNode × Nat))
  | [] => none
  | p :: rest =>
    match pickEarliest rest with
    | none => some (p, [])
    | some (q, rem) => if p.2 ≤ q.2 then some (p, rest) else some (q, p :: rem)

/-- Modelled from the spec: handle the completion of node `n`.  On success
the node is marked completed and every pending node whose dependency set
is now fully satisfied is appended to the ready queue (in sequence order);
on failure the node is marked failed and the error recorded if it is the
first one seen. -/
def completeNode (fl : String → Option String) (n : WorkNode) (s : ExecState) : ExecState :=
  match fl n.id with
  | none =>
    let done2 := s.doneIds ++ [n.id]
    { s with
      pending := s.pending.filter (fun m => !(readyNow done2 m)),
      queue := s.queue ++ s.pending.filter (readyNow done2),
      doneIds := done2,
      trace := s.trace ++ [Event.completeEv n.id] }
  | some e =>
    { s with
      failIds := s.failIds ++ [n.id],
      firstErr := match s.firstErr with
        | none => some e
        | some e0 => some e0,
      trace := s.trace ++ [Event.failEv n.id e] }

/-- Modelled from the spec: the scheduling loop.  Each round dispatches
eagerly, then waits for the earliest outstanding action to finish and
processes it; the loop ends when nothing is running. -/
def runLoop (c : Nat) (dur : String → Nat) (fl : String → Option String) :
    Nat → ExecState → ExecState
  | 0, s => s
  | fuel + 1, s =>
    match pickEarliest (dispatchAll c dur s).running with
    | none => dispatchAll c dur s
    | some (p, rest) =>
      runLoop c dur fl fuel
        (completeNode fl p.1 { dispatchAll c dur s with running := rest, now := p.2 })

/-- Modelled from the spec: initially every node with no (post-elision)
dependencies is ready, in sequence order; the rest are pending. -/
def initState (g : List WorkNode) : ExecState :=
  { pending := g.filter (fun n => !(readyNow [] n)),
    queue := g.filter (readyNow []),
    running := [],
    doneIds := [],
    failIds := [],
    firstErr := none,
    trace := [],
    now := 0 }

/-- Final status of a node after a run. -/
inductive NodeStatus where
  | completed
  | failed
  | skipped
  | pendingLeft
deriving DecidableEq, Repr

/-- One widening round of the transitive-dependent closure: add every node
having a dependency already in the set. -/
def dependentsClosure (g : List WorkNode) : Nat → List String → List String
  | 0, acc => acc
  | fuel + 1, acc =>
    if ((g.filter (fun n =>
        !(acc.contains n.id) && n.deps.any (fun d => acc.contains d))).map
          (fun n => n.id)).isEmpty
    then acc
    else dependentsClosure g fuel
      (acc ++ (g.filter (fun n =>
        !(acc.contains n.id) && n.deps.any (fun d => acc.contains d))).map
          (fun n => n.id))

/-- Modelled from the spec: the nodes marked `skipped` after a failure —
every node transitively depending on a failed node, the failed nodes
themselves excluded. -/
def skippedOf (g : List WorkNode) (failed : List String) : List String :=
  (dependentsClosure g (g.length + 1) failed).filter (fun i => !(failed.contains i))

/-- Modelled from the spec: the observable outcome of a run — the event
log, the terminal result (success or the first recorded error), and the
final status of each node id. -/
structure ExecResult where
  events : List Event
  outcome : Except String Unit
  statusOf : String → NodeStatus

/-- Modelled from the spec: execute the graph at the given concurrency,
with action behaviour given by a duration and a failure assignment per
node id. -/
def execute (g : List WorkNode) (c : Nat) (dur : String → Nat)
    (fl : String → Option String) : ExecResult :=
  let sF := runLoop c dur fl (g.length + 1) (initState g)
  { events := sF.trace,
    outcome := match sF.firstErr with
      | none => Except.ok ()
      | some e => Except.error e,
    statusOf := fun i =>
      if sF.doneIds.contains i then NodeStatus.completed
      else if sF.failIds.contains i then NodeStatus.failed
      else if (skippedOf g sF.failIds).contains i then NodeStatus.skipped
      else NodeStatus.pendingLeft }

/-- The ids dispatched in an event log, in order. -/
def dispatchList (T : List Event) : List WorkNode :=
  T.filterMap (fun e => match e with
    | Event.dispatchEv n => some n
    | _ => none)

/-- The ids completed in an event log, in order.  This is the model of the
test suite's `actionedAssets` list (actions push their id on success). -/
def completesIn (T : List Event) : List String :=
  T.filterMap (fun e => match e with
    | Event.completeEv i => some i
    | _ => none)

/-- The failures recorded in an event log, in order. -/
def failuresIn (T : List Event) : List (String × String) :=
  T.filterMap (fun e => match e with
    | Event.failEv i m => some (i, m)
    | _ => none)

/-- Test-suite analogue of `createArtifact`: stack dependencies then asset
dependencies, each a placeholder `DepRef` of the named kind. -/
def createArtifact (i : String) (k : ArtKind) (stackDeps assetDeps : List String)
    (nm : Nat) (dn : Option String) : Artifact :=
  ⟨i, k, stackDeps.map (fun d => ⟨d, ArtKind.stack⟩) ++
    assetDeps.map (fun d => ⟨d, ArtKind.asset⟩), nm, dn⟩

/-- A plain stack artifact with no dependencies. -/
def stackArt (i : String) : Artifact := createArtifact i ArtKind.stack [] [] 0 none

/-- Modelled from the spec: the action duration assignment the test suite
realises through the repurposed `name` field (only `deployStack` sleeps). -/
def testDur (arts : List Artifact) (i : String) : Nat :=
  match arts.find? (fun a => a.id == i) with
  | some a => match a.kind with
    | ArtKind.stack => a.name
    | ArtKind.asset => 0
  | none => 0

/-- Modelled from the spec: the action failure assignment the test suite
realises through the repurposed `displayName` field. -/
def testFail (arts : List Artifact) (i : String) : Option String :=
  match arts.find? (fun a => a.id == i) with
  | some a => match a.kind with
    | ArtKind.stack => a.displayName
    | ArtKind.asset => none
  | none => none

/-- Modelled from the spec: the test suite's entry point — build the graph
and execute it, action behaviour derived from the artifact fields. -/
def deployArtifacts (arts : List Artifact) (c : Nat) : Option ExecResult :=
  match build arts with
  | Except.ok g => some (execute g c (testDur arts) (testFail arts))
  | Except.error _ => none

/-- The successful-action order of a run (the `actionedAssets` list). -/
def actionedOf (r : ExecResult) : List String :=
  completesIn r.events

/-! ## Trace predicates -/

/-- The dispatched node ids of an event log, in order. -/
def dispatchIds (T : List Event) : List String :=
  (dispatchList T).map (fun n => n.id)

/-- Every dispatch in the log happens only when all the node's
dependencies are already completed; `done` accumulates completions. -/
def depsOkFrom (done : List String) : List Event → Prop
  | [] => True
  | Event.dispatchEv n :: t => (∀ d ∈ n.deps, d ∈ done) ∧ depsOkFrom done t
  | Event.completeEv i :: t => depsOkFrom (done ++ [i]) t
  | Event.failEv _ _ :: t => depsOkFrom done t

/-- Every completion or failure in the log is of a previously dispatched
node; `seen` accumulates dispatches. -/
def matchedFrom (seen : List String) : List Event → Prop
  | [] => True
  | Event.dispatchEv n :: t => matchedFrom (seen ++ [n.id]) t
  | Event.completeEv i :: t => i ∈ seen ∧ matchedFrom seen t
  | Event.failEv i _ :: t => i ∈ seen ∧ matchedFrom seen t

/-- Once any failure has been recorded, no further node is dispatched. -/
def noLateDispatch : List Event → Prop
  | [] => True
  | Event.failEv _ _ :: t => dispatchList t = []
  | Event.dispatchEv _ :: t => noLateDispatch t
  | Event.completeEv _ :: t => noLateDispatch t

theorem dispatchList_append (T1 T2 : List Event) :
    dispatchList (T1 ++ T2) = dispatchList T1 ++ dispatchList T2 :=
  List.filterMap_append T1 T2 _

theorem completesIn_append (T1 T2 : List Event) :
    completesIn (T1 ++ T2) = completesIn T1 ++ completesIn T2 :=
  List.filterMap_append T1 T2 _

theorem failuresIn_append (T1 T2 : List Event) :
    failuresIn (T1 ++ T2) = failuresIn T1 ++ failuresIn T2 :=
  List.filterMap_append T1 T2 _

theorem dispatchIds_append (T1 T2 : List Event) :
    dispatchIds (T1 ++ T2) = dispatchIds T1 ++ dispatchIds T2 := by
  simp [dispatchIds, dispatchList_append]

theorem depsOkFrom_append (T1 T2 : List Event) (done : List String) :
    depsOkFrom done (T1 ++ T2) ↔
      depsOkFrom done T1 ∧ depsOkFrom (done ++ completesIn T1) T2 := by
  induction T1 generalizing done with
  | nil => simp [depsOkFrom, completesIn]
  | cons e t ih =>
    cases e with
    | dispatchEv n =>
      simp [depsOkFrom, completesIn, ih, and_assoc]
    | completeEv i =>
      simp only [List.cons_append, depsOkFrom, List.append_eq, ih]
      constructor
      · rintro ⟨h1, h2⟩
        refine ⟨h1, ?_⟩
        simpa [completesIn, List.append_assoc] using h2
      · rintro ⟨h1, h2⟩
        refine ⟨h1, ?_⟩
        simpa [completesIn, List.append_assoc] using h2
    | failEv i m =>
      simp [depsOkFrom, completesIn, ih]

theorem matchedFrom_append (T1 T2 : List Event) (seen : List String) :
    matchedFrom seen (T1 ++ T2) ↔
      matchedFrom seen T1 ∧ matchedFrom (seen ++ dispatchIds T1) T2 := by
  induction T1 generalizing seen with
  | nil => simp [matchedFrom, dispatchIds, dispatchList]
  | cons e t ih =>
    cases e with
    | dispatchEv n =>
      simp only [List.cons_append, matchedFrom, List.append_eq, ih]
      constructor
      · rintro ⟨h1, h2⟩
        refine ⟨h1, ?_⟩
        simpa [dispatchIds, dispatchList, List.append_assoc] using h2
      · rintro ⟨h1, h2⟩
        refine ⟨h1, ?_⟩
        simpa [dispatchIds, dispatchList, List.append_assoc] using h2
    | completeEv i =>
      simp [matchedFrom, dispatchIds, dispatchList, ih, and_assoc]
    | failEv i m =>
      simp [matchedFrom, dispatchIds, dispatchList, ih, and_assoc]

theorem noLate_append_dispatch (T : List Event) (n : WorkNode)
    (h : noLateDispatch T) (hf : failuresIn T = []) :
    noLateDispatch (T ++ [Event.dispatchEv n]) := by
  induction T with
  | nil => simp [noLateDispatch]
  | cons e t ih =>
    cases e with
    | dispatchEv m =>
      exact ih (by simpa [noLateDispatch] using h) (by simpa [failuresIn] using hf)
    | completeEv i =>
      exact ih (by simpa [noLateDispatch] using h) (by simpa [failuresIn] using hf)
    | failEv i m => simp [failuresIn] at hf

theorem noLate_append_quiet (T : List Event) (e : Event)
    (he : dispatchList [e] = []) (h : noLateDispatch T) :
    noLateDispatch (T ++ [e]) := by
  induction T with
  | nil =>
    cases e with
    | dispatchEv n => simp [dispatchList] at he
    | completeEv i => simp [noLateDispatch]
    | failEv i m => simp [noLateDispatch, dispatchList]
  | cons f t ih =>
    cases f with
    | dispatchEv m => exact ih (by simpa [noLateDispatch] using h)
    | completeEv i => exact ih (by simpa [noLateDispatch] using h)
    | failEv i m =>
      have h2 : dispatchList t = [] := by simpa [noLateDispatch] using h
      simpa [noLateDispatch, dispatchList_append, h2] using he

theorem mem_completesIn (T : List Event) (d : String) :
    d ∈ completesIn T ↔ Event.completeEv d ∈ T := by
  induction T with
  | nil => simp [completesIn]
  | cons e t ih =>
    cases e with
    | dispatchEv n => simp [completesIn] at ih ⊢; simpa using ih
    | completeEv i => simp [completesIn] at ih ⊢; rw [ih]
    | failEv i m => simp [completesIn] at ih ⊢; simpa using ih

theorem mem_dispatchList (T : List Event) (n : WorkNode) :
    n ∈ dispatchList T ↔ Event.dispatchEv n ∈ T := by
  induction T with
  | nil => simp [dispatchList]
  | cons e t ih =>
    cases e with
    | dispatchEv m => simp [dispatchList] at ih ⊢; rw [ih]
    | completeEv i => simp [dispatchList] at ih ⊢; simpa using ih
    | failEv i m => simp [dispatchList] at ih ⊢; simpa using ih

theorem mem_dispatchIds (T : List Event) (i : String) :
    i ∈ dispatchIds T ↔ ∃ n, n.id = i ∧ Event.dispatchEv n ∈ T := by
  simp only [dispatchIds, List.mem_map]
  constructor
  · rintro ⟨n, hn, rfl⟩
    exact ⟨n, rfl, (mem_dispatchList T n).mp hn⟩
  · rintro ⟨n, rfl, hn⟩
    exact ⟨n, (mem_dispatchList T n).mpr hn, rfl⟩

/-- Dependency extraction: a dispatch in a well-formed log is preceded by
completions of all the node's dependencies. -/
theorem depsOk_decomp (done : List String) (T1 T2 : List Event) (n : WorkNode)
    (h : depsOkFrom done (T1 ++ Event.dispatchEv n :: T2)) :
    ∀ d ∈ n.deps, d ∈ done ++ completesIn T1 := by
  have h2 := (depsOkFrom_append T1 (Event.dispatchEv n :: T2) done).mp h
  exact h2.2.1

/-- Completion extraction: a completion in a well-formed log is preceded by
a dispatch of the same id. -/
theorem matched_decomp (seen : List String) (T1 T2 : List Event) (i : String)
    (h : matchedFrom seen (T1 ++ Event.completeEv i :: T2)) :
    i ∈ seen ++ dispatchIds T1 := by
  have h2 := (matchedFrom_append T1 (Event.completeEv i :: T2) seen).mp h
  exact h2.2.1

/-- Failure extraction: a failure in a well-formed log is preceded by a
dispatch of the same id. -/
theorem matched_decomp_fail (seen : List String) (T1 T2 : List Event) (i m : String)
    (h : matchedFrom seen (T1 ++ Event.failEv i m :: T2)) :
    i ∈ seen ++ dispatchIds T1 := by
  have h2 := (matchedFrom_append T1 (Event.failEv i m :: T2) seen).mp h
  exact h2.2.1

/-- After any recorded failure the log contains no further dispatch. -/
theorem noLate_decomp (T T1 T2 : List Event) (i m : String)
    (h : noLateDispatch T) (he : T = T1 ++ Event.failEv i m :: T2) :
    dispatchList T2 = [] := by
  subst he
  induction T1 with
  | nil => simpa [noLateDispatch] using h
  | cons e t ih =>
    cases e with
    | dispatchEv x => exact ih (by simpa [noLateDispatch] using h)
    | completeEv x => exact ih (by simpa [noLateDispatch] using h)
    | failEv x y =>
      have h2 : dispatchList (t ++ Event.failEv i m :: T2) = [] := by
        simpa [noLateDispatch] using h
      rw [dispatchList_append] at h2
      have := List.append_eq_nil.mp h2
      simpa [dispatchList] using this.2

/-- Chain construction: dispatch of a dependency, completion of that
dependency, and dispatch of the dependent appear in this order. -/
theorem chain3_sublist (T1 T2 U1 U2 : List Event) (m n : WorkNode) (d : String)
    (hT1 : T1 = U1 ++ Event.completeEv d :: U2)
    (hm : Event.dispatchEv m ∈ U1) :
    List.Sublist [Event.dispatchEv m, Event.completeEv d, Event.dispatchEv n]
      (T1 ++ Event.dispatchEv n :: T2) := by
  subst hT1
  have s1 : List.Sublist [Event.dispatchEv m] U1 := List.singleton_sublist.mpr hm
  have s2 : List.Sublist [Event.completeEv d] (Event.completeEv d :: U2) :=
    List.singleton_sublist.mpr (List.mem_cons_self _ _)
  have s3 : List.Sublist [Event.dispatchEv n] (Event.dispatchEv n :: T2) :=
    List.singleton_sublist.mpr (List.mem_cons_self _ _)
  have s12 := List.Sublist.append s1 s2
  have s123 := List.Sublist.append s12 s3
  simpa using s123

/-! ## Scheduler invariants -/

/-- The ids of the currently running nodes, in dispatch order. -/
def runIds (s : ExecState) : List String :=
  s.running.map (fun p => p.1.id)

/-- Nodes not yet finished: the termination measure of the loop. -/
def measureOf (s : ExecState) : Nat :=
  s.pending.length + s.queue.length + s.running.length

theorem readyNow_mem (done : List String) (n : WorkNode)
    (h : readyNow done n = true) : ∀ d ∈ n.deps, d ∈ done := by
  intro d hd
  simp only [readyNow, List.all_eq_true] at h
  simpa using h d hd

theorem readyNow_mono (d1 d2 : List String) (n : WorkNode)
    (hsub : ∀ x ∈ d1, x ∈ d2) (h : readyNow d1 n = true) : readyNow d2 n = true := by
  simp only [readyNow, List.all_eq_true] at h ⊢
  intro d hd
  have h2 := h d hd
  simp at h2 ⊢
  exact hsub d h2

theorem readyNow_false_mem (done : List String) (n : WorkNode)
    (h : readyNow done n = false) : ∃ d ∈ n.deps, d ∉ done := by
  by_contra hcon
  push_neg at hcon
  have : readyNow done n = true := by
    simp only [readyNow, List.all_eq_true]
    intro d hd
    simpa using hcon d hd
  simp [this] at h

/-- All the run-state invariants maintained by the scheduling loop. -/
structure SchedInv (g : List WorkNode) (c : Nat) (fl : String → Option String)
    (s : ExecState) : Prop where
  perm : List.Perm (s.pending ++ s.queue ++ dispatchList s.trace) g
  runPerm : List.Perm (dispatchIds s.trace) (runIds s ++ s.doneIds ++ s.failIds)
  pendNR : ∀ n ∈ s.pending, readyNow s.doneIds n = false
  queueR : ∀ n ∈ s.queue, readyNow s.doneIds n = true
  doneEq : s.doneIds = completesIn s.trace
  failEq : s.failIds = (failuresIn s.trace).map Prod.fst
  errEq : s.firstErr = ((failuresIn s.trace).head?).map Prod.snd
  depsOk : depsOkFrom [] s.trace
  matched : matchedFrom [] s.trace
  noLate : noLateDispatch s.trace
  runBound : s.running.length ≤ c
  failSpec : ∀ pr ∈ failuresIn s.trace, fl pr.1 = some pr.2

theorem failuresIn_nil_of_err_none (s : ExecState)
    (herr : s.firstErr = ((failuresIn s.trace).head?).map Prod.snd)
    (h : s.firstErr = none) : failuresIn s.trace = [] := by
  rw [h] at herr
  cases hf : (failuresIn s.trace).head? with
  | none => exact List.head?_eq_none_iff.mp hf
  | some pr => rw [hf] at herr; simp at herr

theorem initState_inv (g : List WorkNode) (c : Nat) (fl : String → Option String) :
    SchedInv g c fl (initState g) := by
  refine ⟨?_, ?_, ?_, ?_, ?_, ?_, ?_, ?_, ?_, ?_, ?_, ?_⟩
  · simpa [initState, dispatchList] using
      (List.perm_append_comm.trans (List.filter_append_perm (readyNow []) g))
  · simp [initState, dispatchIds, dispatchList, runIds]
  · intro n hn
    simp only [initState, List.mem_filter] at hn
    simpa using hn.2
  · intro n hn
    simp only [initState, List.mem_filter] at hn
    exact hn.2
  · simp [initState, completesIn]
  · simp [initState, failuresIn]
  · simp [initState, failuresIn]
  · simp [initState, depsOkFrom]
  · simp [initState, matchedFrom]
  · simp [initState, noLateDispatch]
  · simp [initState]
  · simp [initState, failuresIn]

theorem perm_move_last {α : Type _} (p r dl : List α) (n : α) :
    List.Perm (p ++ r ++ (dl ++ [n])) (p ++ (n :: r) ++ dl) := by
  have h1 : List.Perm ((r ++ dl) ++ [n]) (n :: (r ++ dl)) := List.perm_append_comm
  have h2 := h1.append_left p
  have e1 : p ++ r ++ (dl ++ [n]) = p ++ ((r ++ dl) ++ [n]) := by simp
  have e2 : p ++ (n :: r) ++ dl = p ++ (n :: (r ++ dl)) := by simp
  rw [e1, e2]; exact h2

theorem dispatchPhase_inv (g : List WorkNode) (c : Nat) (dur : String → Nat)
    (fl : String → Option String) :
    ∀ (q : List WorkNode) (s : ExecState), s.queue = q → SchedInv g c fl s →
      SchedInv g c fl (dispatchPhase c dur q s) := by
  intro q
  induction q with
  | nil => intro s _ h; simpa [dispatchPhase] using h
  | cons n rest ih =>
    intro s hq h
    obtain ⟨hperm, hrun, hpnr, hqr, hdone, hfail, herr, hdeps, hmat, hnl, hrb, hfs⟩ := h
    by_cases hg : s.firstErr = none ∧ s.running.length < c
    · rw [dispatchPhase, if_pos hg]
      apply ih _ rfl
      have hfailNil : failuresIn s.trace = [] := failuresIn_nil_of_err_none s herr hg.1
      refine ⟨?_, ?_, ?_, ?_, ?_, ?_, ?_, ?_, ?_, ?_, ?_, ?_⟩
      · have hmove := perm_move_last s.pending rest (dispatchList s.trace) n
        have hq2 : s.pending ++ (n :: rest) ++ dispatchList s.trace =
            s.pending ++ s.queue ++ dispatchList s.trace := by rw [hq]
        simpa [dispatchList_append, dispatchList] using hmove.trans (hq2 ▸ hperm)
      · have h1 : dispatchIds (s.trace ++ [Event.dispatchEv n]) =
            dispatchIds s.trace ++ [n.id] := by
          simp [dispatchIds_append, dispatchIds, dispatchList]
        refine List.perm_iff_count.mpr fun a => ?_
        have hc := hrun.count_eq a
        simp only [h1, runIds, List.map_append] at *
        simp [List.count_append, List.count_cons] at hc ⊢
        omega
      · intro m hm; exact hpnr m hm
      · intro m hm; exact hqr m (by rw [hq]; exact List.mem_cons_of_mem _ hm)
      · simpa [completesIn_append, completesIn] using hdone
      · simpa [failuresIn_append, failuresIn] using hfail
      · simpa [failuresIn_append, failuresIn] using herr
      · refine (depsOkFrom_append _ _ _).mpr ⟨hdeps, ?_⟩
        simp only [depsOkFrom, List.nil_append]
        refine ⟨?_, trivial⟩
        intro d hd
        have hr : readyNow s.doneIds n = true :=
          hqr n (by rw [hq]; exact List.mem_cons_self _ _)
        have hmem := readyNow_mem _ _ hr d hd
        rwa [hdone] at hmem
      · exact (matchedFrom_append _ _ _).mpr ⟨hmat, by simp [matchedFrom]⟩
      · exact noLate_append_dispatch _ n hnl hfailNil
      · simpa using hg.2
      · simpa [failuresIn_append, failuresIn] using hfs
    · rw [dispatchPhase, if_neg hg]
      exact ⟨hperm, hrun, hpnr, hqr, hdone, hfail, herr, hdeps, hmat, hnl, hrb, hfs⟩

theorem dispatchPhase_facts (c : Nat) (dur : String → Nat) :
    ∀ (q : List WorkNode) (s : ExecState), s.queue = q →
      (dispatchPhase c dur q s).pending = s.pending ∧
      (dispatchPhase c dur q s).doneIds = s.doneIds ∧
      (dispatchPhase c dur q s).failIds = s.failIds ∧
      (dispatchPhase c dur q s).firstErr = s.firstErr ∧
      (dispatchPhase c dur q s).now = s.now ∧
      (dispatchPhase c dur q s).queue.length + (dispatchPhase c dur q s).running.length
        = q.length + s.running.length ∧
      (∃ ext, (dispatchPhase c dur q s).trace = s.trace ++ ext) ∧
      ((dispatchPhase c dur q s).queue ≠ [] →
        ¬((dispatchPhase c dur q s).firstErr = none ∧
          (dispatchPhase c dur q s).running.length < c)) := by
  intro q
  induction q with
  | nil =>
    intro s hq
    refine ⟨rfl, rfl, rfl, rfl, rfl, by simp [dispatchPhase, hq], ⟨[], by simp [dispatchPhase]⟩, ?_⟩
    intro hne
    simp only [dispatchPhase] at hne
    rw [hq] at hne
    exact absurd rfl hne
  | cons n rest ih =>
    intro s hq
    by_cases hg : s.firstErr = none ∧ s.running.length < c
    · rw [dispatchPhase, if_pos hg]
      obtain ⟨f1, f2, f3, f4, f5, f6, ⟨ext, f7⟩, f8⟩ := ih { s with
        queue := rest,
        running := s.running ++ [(n, s.now + dur n.id)],
        trace := s.trace ++ [Event.dispatchEv n] } rfl
      refine ⟨f1, f2, f3, f4, f5, by simp at f6 ⊢; omega, ⟨Event.dispatchEv n :: ext, ?_⟩, f8⟩
      simpa using f7
    · rw [dispatchPhase, if_neg hg]
      refine ⟨rfl, rfl, rfl, rfl, rfl, by rw [hq], ⟨[], by simp⟩, fun _ => hg⟩

theorem pickEarliest_none_iff (l : List (WorkNode × Nat)) :
    pickEarliest l = none ↔ l = [] := by
  cases l with
  | nil => simp [pickEarliest]
  | cons p rest =>
    simp only [pickEarliest]
    cases hrec : pickEarliest rest with
    | none => simp
    | some pr =>
      obtain ⟨q, rem⟩ := pr
      by_cases hle : p.2 ≤ q.2 <;> simp [hle]

theorem pickEarliest_perm (l : List (WorkNode × Nat)) (p : WorkNode × Nat)
    (rem : List (WorkNode × Nat)) (h : pickEarliest l = some (p, rem)) :
    List.Perm l (p :: rem) := by
  induction l generalizing p rem with
  | nil => simp [pickEarliest] at h
  | cons q rest ih =>
    rw [pickEarliest] at h
    cases hrec : pickEarliest rest with
    | none =>
      rw [hrec] at h
      have hre : rest = [] := (pickEarliest_none_iff rest).mp hrec
      simp only [Option.some.injEq, Prod.mk.injEq] at h
      obtain ⟨h1, h2⟩ := h
      subst hre h1 h2
      exact List.Perm.refl _
    | some pr =>
      obtain ⟨q2, rem2⟩ := pr
      rw [hrec] at h
      have h2 : (if q.2 ≤ q2.2 then some (q, rest) else some (q2, q :: rem2))
          = some (p, rem) := h
      by_cases hle : q.2 ≤ q2.2
      · rw [if_pos hle] at h2
        simp only [Option.some.injEq, Prod.mk.injEq] at h2
        obtain ⟨h3, h4⟩ := h2
        subst h3 h4
        exact List.Perm.refl _
      · rw [if_neg hle] at h2
        simp only [Option.some.injEq, Prod.mk.injEq] at h2
        obtain ⟨h3, h4⟩ := h2
        subst h3 h4
        exact ((ih _ _ hrec).cons q).trans (List.Perm.swap q2 q rem2)

theorem completeNode_measure (fl : String → Option String) (n : WorkNode) (s : ExecState) :
    measureOf (completeNode fl n s)
      = s.pending.length + s.queue.length + s.running.length := by
  cases hfl : fl n.id with
  | none =>
    have hfp :=
      (List.filter_append_perm (readyNow (s.doneIds ++ [n.id])) s.pending).length_eq
    simp only [completeNode, hfl, measureOf, List.length_append] at *
    omega
  | some e => simp [completeNode, hfl, measureOf]

theorem completeNode_trace (fl : String → Option String) (n : WorkNode) (s : ExecState) :
    ∃ e, (completeNode fl n s).trace = s.trace ++ [e] := by
  cases hfl : fl n.id with
  | none => exact ⟨Event.completeEv n.id, by simp [completeNode, hfl]⟩
  | some e => exact ⟨Event.failEv n.id e, by simp [completeNode, hfl]⟩

theorem completeNode_inv (g : List WorkNode) (c : Nat) (fl : String → Option String)
    (s : ExecState) (n : WorkNode) (t : Nat) (rest : List (WorkNode × Nat))
    (h : SchedInv g c fl s) (hp : pickEarliest s.running = some ((n, t), rest)) :
    SchedInv g c fl (completeNode fl n { s with running := rest, now := t }) := by
  obtain ⟨hperm, hrun, hpnr, hqr, hdone, hfail, herr, hdeps, hmat, hnl, hrb, hfs⟩ := h
  have hrperm : List.Perm s.running ((n, t) :: rest) := pickEarliest_perm _ _ _ hp
  have hridperm : List.Perm (runIds s) (n.id :: rest.map (fun p => p.1.id)) := by
    simpa [runIds] using hrperm.map (fun p => p.1.id)
  have hmemn : n.id ∈ dispatchIds s.trace := by
    have h1 : n.id ∈ runIds s := hridperm.mem_iff.mpr (List.mem_cons_self _ _)
    exact hrun.mem_iff.mpr (by simp [h1])
  have hrlen : s.running.length = rest.length + 1 := by
    simpa using hrperm.length_eq
  cases hfl : fl n.id with
  | none =>
    refine ⟨?_, ?_, ?_, ?_, ?_, ?_, ?_, ?_, ?_, ?_, ?_, ?_⟩
    · refine List.perm_iff_count.mpr fun a => ?_
      have hc := hperm.count_eq a
      have hfc := (List.filter_append_perm (readyNow (s.doneIds ++ [n.id]))
        s.pending).count_eq a
      simp only [completeNode, hfl]
      simp [dispatchList_append, dispatchList, List.count_append] at hc hfc ⊢
      omega
    · refine List.perm_iff_count.mpr fun a => ?_
      have hc := hrun.count_eq a
      have hc2 := hridperm.count_eq a
      simp only [completeNode, hfl]
      simp [dispatchIds_append, dispatchIds, dispatchList, runIds,
        List.count_append, List.count_cons] at hc hc2 ⊢
      omega
    · intro m hm
      simp only [completeNode, hfl] at hm ⊢
      simpa using (List.mem_filter.mp hm).2
    · intro m hm
      simp only [completeNode, hfl] at hm ⊢
      rcases List.mem_append.mp hm with hm | hm
      · exact readyNow_mono s.doneIds _ m (fun x hx => by simp [hx]) (hqr m hm)
      · exact (List.mem_filter.mp hm).2
    · simp only [completeNode, hfl]
      simp [completesIn_append, completesIn, hdone]
    · simp only [completeNode, hfl]
      simpa [failuresIn_append, failuresIn] using hfail
    · simp only [completeNode, hfl]
      simpa [failuresIn_append, failuresIn] using herr
    · simp only [completeNode, hfl]
      exact (depsOkFrom_append _ _ _).mpr ⟨hdeps, by simp [depsOkFrom]⟩
    · simp only [completeNode, hfl]
      exact (matchedFrom_append _ _ _).mpr ⟨hmat, by simp [matchedFrom, hmemn]⟩
    · simp only [completeNode, hfl]
      exact noLate_append_quiet _ _ (by simp [dispatchList]) hnl
    · simp only [completeNode, hfl]
      omega
    · simp only [completeNode, hfl]
      simpa [failuresIn_append, failuresIn] using hfs
  | some e =>
    refine ⟨?_, ?_, ?_, ?_, ?_, ?_, ?_, ?_, ?_, ?_, ?_, ?_⟩
    · simp only [completeNode, hfl]
      simpa [dispatchList_append, dispatchList] using hperm
    · refine List.perm_iff_count.mpr fun a => ?_
      have hc := hrun.count_eq a
      have hc2 := hridperm.count_eq a
      simp only [completeNode, hfl]
      simp [dispatchIds_append, dispatchIds, dispatchList, runIds,
        List.count_append, List.count_cons] at hc hc2 ⊢
      omega
    · intro m hm
      simp only [completeNode, hfl] at hm ⊢
      exact hpnr m hm
    · intro m hm
      simp only [completeNode, hfl] at hm ⊢
      exact hqr m hm
    · simp only [completeNode, hfl]
      simpa [failuresIn_append, completesIn_append, completesIn] using hdone
    · simp only [completeNode, hfl]
      simp [failuresIn_append, failuresIn, hfail]
    · simp only [completeNode, hfl]
      cases hcase : failuresIn s.trace with
      | nil =>
        have hnone : s.firstErr = none := by rw [herr, hcase]; rfl
        rw [hnone, failuresIn_append, hcase]
        simp [failuresIn]
      | cons f0 fs =>
        have hsome : s.firstErr = some f0.2 := by rw [herr, hcase]; rfl
        rw [hsome, failuresIn_append, hcase]
        simp [failuresIn]
    · simp only [completeNode, hfl]
      exact (depsOkFrom_append _ _ _).mpr ⟨hdeps, by simp [depsOkFrom]⟩
    · simp only [completeNode, hfl]
      exact (matchedFrom_append _ _ _).mpr ⟨hmat, by simp [matchedFrom, hmemn]⟩
    · simp only [completeNode, hfl]
      exact noLate_append_quiet _ _ (by simp [dispatchList]) hnl
    · simp only [completeNode, hfl]
      omega
    · simp only [completeNode, hfl]
      intro pr hpr
      rw [failuresIn_append] at hpr
      rcases List.mem_append.mp hpr with hpr | hpr
      · exact hfs pr hpr
      · have hpe : pr = (n.id, e) := by simpa [failuresIn] using hpr
        rw [hpe]
        exact hfl

/-- A state from which the loop makes no further progress: nothing runs,
and the queue is nonempty only when dispatch is blocked. -/
def Halted (c : Nat) (s : ExecState) : Prop :=
  s.running = [] ∧ (s.queue ≠ [] → ¬(s.firstErr = none ∧ 0 < c))

theorem runLoop_spec (g : List WorkNode) (c : Nat) (dur : String → Nat)
    (fl : String → Option String) :
    ∀ (fuel : Nat) (s : ExecState), SchedInv g c fl s → measureOf s < fuel →
      SchedInv g c fl (runLoop c dur fl fuel s) ∧
      Halted c (runLoop c dur fl fuel s) ∧
      (∃ ext, (runLoop c dur fl fuel s).trace = s.trace ++ ext) := by
  intro fuel
  induction fuel with
  | zero => intro s h hm; omega
  | succ fuel ih =>
    intro s h hm
    have hinv1 : SchedInv g c fl (dispatchPhase c dur s.queue s) :=
      dispatchPhase_inv g c dur fl s.queue s rfl h
    obtain ⟨f1, f2, f3, f4, f5, f6, ⟨ext1, f7⟩, f8⟩ := dispatchPhase_facts c dur s.queue s rfl
    rw [runLoop]
    simp only [dispatchAll]
    cases hp : pickEarliest (dispatchPhase c dur s.queue s).running with
    | none =>
      have hre : (dispatchPhase c dur s.queue s).running = [] :=
        (pickEarliest_none_iff _).mp hp
      refine ⟨hinv1, ⟨hre, ?_⟩, ⟨ext1, f7⟩⟩
      intro hne hcontra
      exact (f8 hne) ⟨hcontra.1, by rw [hre]; simpa using hcontra.2⟩
    | some pr =>
      obtain ⟨⟨n, t⟩, rest⟩ := pr
      have hinv2 : SchedInv g c fl
          (completeNode fl n { dispatchPhase c dur s.queue s with running := rest, now := t }) :=
        completeNode_inv g c fl (dispatchPhase c dur s.queue s) n t rest hinv1 hp
      have hrlen : (dispatchPhase c dur s.queue s).running.length = rest.length + 1 := by
        simpa using (pickEarliest_perm _ _ _ hp).length_eq
      have hm2 : measureOf
          (completeNode fl n { dispatchPhase c dur s.queue s with running := rest, now := t })
          < fuel := by
        have hcm : measureOf
            (completeNode fl n { dispatchPhase c dur s.queue s with running := rest, now := t })
            = (dispatchPhase c dur s.queue s).pending.length
              + (dispatchPhase c dur s.queue s).queue.length + rest.length :=
          completeNode_measure fl n _
        have hms : measureOf s = s.pending.length + s.queue.length + s.running.length := rfl
        have hpe : (dispatchPhase c dur s.queue s).pending.length = s.pending.length := by
          rw [f1]
        rw [hcm]
        rw [hms] at hm
        omega
      obtain ⟨hI, hH, ⟨ext2, hT⟩⟩ := ih _ hinv2 hm2
      refine ⟨hI, hH, ?_⟩
      obtain ⟨e0, hce⟩ := completeNode_trace fl n
        { dispatchPhase c dur s.queue s with running := rest, now := t }
      refine ⟨ext1 ++ [e0] ++ ext2, ?_⟩
      rw [hT, hce]
      simp only []
      rw [f7]
      simp

/-! ## Cycles and the Kahn check -/

theorem allMem_mem (xs ys : List String) (h : allMem xs ys = true) :
    ∀ x ∈ xs, x ∈ ys := by
  intro x hx
  simp only [allMem, List.all_eq_true] at h
  simpa using h x hx

theorem allMem_false (xs ys : List String) (h : allMem xs ys = false) :
    ∃ x ∈ xs, x ∉ ys := by
  by_contra hcon
  push_neg at hcon
  have : allMem xs ys = true := by
    simp only [allMem, List.all_eq_true]
    intro x hx
    simpa using hcon x hx
  simp [this] at h

/-- A nonempty set of nodes each of which depends on another member of the
set witnesses a cycle in the graph. -/
theorem stuck_cycle (g : List WorkNode) (S : List WorkNode)
    (hne : S ≠ []) (hsub : ∀ n ∈ S, n ∈ g)
    (hclosed : ∀ n ∈ S, ∃ d ∈ n.deps, ∃ m ∈ S, m.id = d) : HasCycle g := by
  by_contra hnc
  let R : { x : String // x ∈ (S.map (fun n => n.id)).toFinset } →
      { x : String // x ∈ (S.map (fun n => n.id)).toFinset } → Prop :=
    fun a b => DepStep g a.val b.val
  have hsucc : ∀ a, ∃ b, R a b := by
    intro a
    have hmem : a.val ∈ S.map (fun n => n.id) := List.mem_toFinset.mp a.property
    obtain ⟨n, hnS, hid⟩ := List.mem_map.mp hmem
    obtain ⟨d, hd, m, hmS, hmid⟩ := hclosed n hnS
    have hdT : d ∈ (S.map (fun n => n.id)).toFinset := by
      rw [List.mem_toFinset, List.mem_map]
      exact ⟨m, hmS, hmid⟩
    refine ⟨⟨d, hdT⟩, ?_⟩
    show DepStep g a.val d
    rw [← hid]
    exact DepStep.mk n (hsub n hnS) d hd
  have hirr : ∀ a, ¬ Relation.TransGen R a a := by
    intro a ha
    exact hnc ⟨a.val, Relation.TransGen.lift Subtype.val (fun x y h => h) ha⟩
  haveI : IsTrans { x : String // x ∈ (S.map (fun n => n.id)).toFinset }
      (fun a b => Relation.TransGen R b a) :=
    ⟨by intro a b c h1 h2; exact h2.trans h1⟩
  haveI : IsIrrefl { x : String // x ∈ (S.map (fun n => n.id)).toFinset }
      (fun a b => Relation.TransGen R b a) :=
    ⟨by intro a h; exact hirr a h⟩
  have hwf := Finite.wellFounded_of_trans_of_irrefl
    (fun a b => Relation.TransGen R b a)
  have hwf2 : WellFounded (fun a b => R b a) :=
    Subrelation.wf
      (fun {x y} h => (Relation.TransGen.single h : Relation.TransGen R y x)) hwf
  have hT0 : ∃ t0 : { x : String // x ∈ (S.map (fun n => n.id)).toFinset }, True := by
    cases S with
    | nil => exact absurd rfl hne
    | cons n rest =>
      refine ⟨⟨n.id, ?_⟩, trivial⟩
      rw [List.mem_toFinset]
      simp
  obtain ⟨t0, _⟩ := hT0
  obtain ⟨m, _, hmin⟩ := hwf2.has_min Set.univ ⟨t0, trivial⟩
  obtain ⟨b, hb⟩ := hsucc m
  exact hmin b trivial hb

/-- A cycle yields a successor-closed nonempty set of ids. -/
theorem cycle_set_of_hasCycle (g : List WorkNode) (h : HasCycle g) :
    ∃ X : Set String, X.Nonempty ∧
      ∀ i ∈ X, ∃ n ∈ g, n.id = i ∧ ∃ d ∈ n.deps, d ∈ X := by
  obtain ⟨x, hx⟩ := h
  refine ⟨{ y | Relation.TransGen (DepStep g) x y ∧ Relation.TransGen (DepStep g) y x },
    ⟨x, hx, hx⟩, ?_⟩
  rintro i ⟨hxi, hix⟩
  obtain ⟨d, hstep, hrest⟩ := Relation.TransGen.head'_iff.mp hix
  have hd2 : d ∈ { y | Relation.TransGen (DepStep g) x y ∧
      Relation.TransGen (DepStep g) y x } := by
    refine ⟨?_, ?_⟩
    · exact hxi.tail hstep
    · rcases Relation.reflTransGen_iff_eq_or_transGen.mp hrest with rfl | htg
      · exact hx
      · exact htg
  cases hstep with
  | mk n hn d0 hd0 => exact ⟨n, hn, rfl, d, ‹d ∈ n.deps›, hd2⟩

theorem node_in_nodesOf (arts : List Artifact) (i : Nat) (a : Artifact)
    (ha : arts.get? i = some a) :
    ∀ n ∈ artifactNodes arts i a, n ∈ nodesOf arts := by
  intro n hn
  rw [nodesOf, List.mem_flatten]
  refine ⟨artifactNodes arts i a, ?_, hn⟩
  rw [List.mem_map]
  refine ⟨(i, a), ?_, rfl⟩
  rw [List.mem_enum_iff_getElem?, ← List.get?_eq_getElem?]
  exact ha

theorem resolveDep_mem (arts : List Artifact) (d : DepRef) (x : String)
    (h : resolveDep arts d = some x) : x ∈ (nodesOf arts).map (fun n => n.id) := by
  unfold resolveDep at h
  cases hf : arts.find? (fun a => a.id == d.id) with
  | none => rw [hf] at h; cases h
  | some a =>
    rw [hf] at h
    have h2 : (match a.kind with
      | ArtKind.stack => some a.id
      | ArtKind.asset => some (a.id ++ "-publish")) = some x := h
    have ha : a ∈ arts := List.mem_of_find?_eq_some hf
    obtain ⟨i, hi⟩ := List.get?_of_mem ha
    cases hk : a.kind with
    | stack =>
      rw [hk] at h2
      have h3 : some a.id = some x := h2
      injection h3 with h3
      subst h3
      rw [List.mem_map]
      refine ⟨⟨a.id, WorkKind.deployStack,
        a.dependencies.filterMap (resolveDep arts), 2 * i⟩, ?_, rfl⟩
      apply node_in_nodesOf arts i a hi
      simp [artifactNodes, hk]
    | asset =>
      rw [hk] at h2
      have h3 : some (a.id ++ "-publish") = some x := h2
      injection h3 with h3
      subst h3
      rw [List.mem_map]
      refine ⟨⟨a.id ++ "-publish", WorkKind.publishAsset,
        [a.id ++ "-build"], 2 * i + 1⟩, ?_, rfl⟩
      apply node_in_nodesOf arts i a hi
      simp [artifactNodes, hk]

theorem deps_closed (arts : List Artifact) :
    ∀ n ∈ nodesOf arts, ∀ d ∈ n.deps, d ∈ (nodesOf arts).map (fun m => m.id) := by
  intro n hn d hd
  rw [nodesOf, List.mem_flatten] at hn
  obtain ⟨l, hl, hnl⟩ := hn
  rw [List.mem_map] at hl
  obtain ⟨⟨i, a⟩, hia, rfl⟩ := hl
  have hget : arts.get? i = some a := by
    rw [List.get?_eq_getElem?]
    exact List.mem_enum_iff_getElem?.mp hia
  cases hk : a.kind with
  | stack =>
    simp only [artifactNodes, hk, List.mem_singleton] at hnl
    subst hnl
    simp only [List.mem_filterMap] at hd
    obtain ⟨dep, _, hres⟩ := hd
    exact resolveDep_mem arts dep d hres
  | asset =>
    simp only [artifactNodes, hk, List.mem_cons, List.mem_singleton,
      List.not_mem_nil, or_false] at hnl
    rcases hnl with hnl | hnl
    · subst hnl
      simp only [List.mem_filterMap] at hd
      obtain ⟨dep, _, hres⟩ := hd
      exact resolveDep_mem arts dep d hres
    · subst hnl
      simp only [List.mem_singleton] at hd
      subst hd
      rw [List.mem_map]
      refine ⟨⟨a.id ++ "-build", WorkKind.buildAsset,
        a.dependencies.filterMap (resolveDep arts), 2 * i⟩, ?_, rfl⟩
      apply node_in_nodesOf arts i a hget
      simp [artifactNodes, hk]

theorem kahnLoop_ok (g : List WorkNode) (hnc : ¬ HasCycle g)
    (hcl : ∀ n ∈ g, ∀ d ∈ n.deps, d ∈ g.map (fun m => m.id)) :
    ∀ (fuel : Nat) (done : List String) (rem : List WorkNode),
      rem.length < fuel →
      (∀ n ∈ rem, n ∈ g) →
      (∀ x ∈ g.map (fun m => m.id), x ∈ done ∨ x ∈ rem.map (fun m => m.id)) →
      ∃ out, kahnLoop fuel done rem = some out := by
  intro fuel
  induction fuel with
  | zero => intro done rem h; omega
  | succ fuel ih =>
    intro done rem hlen hsub hcov
    by_cases hre : rem.isEmpty
    · exact ⟨done, by rw [kahnLoop, if_pos hre]⟩
    · have hready : ¬ (rem.filter (kahnReady done)).isEmpty = true := by
        intro hrdy
        rw [List.isEmpty_iff] at hrdy
        apply hnc
        apply stuck_cycle g rem
        · intro hremnil
          rw [hremnil] at hre
          simp at hre
        · exact hsub
        · intro n hn
          have hnr : kahnReady done n = false := by
            by_contra hc
            have hmem : n ∈ rem.filter (kahnReady done) :=
              List.mem_filter.mpr ⟨hn, by simpa using hc⟩
            rw [hrdy] at hmem
            cases hmem
          obtain ⟨d, hd, hdnot⟩ := allMem_false n.deps done hnr
          have hdg := hcl n (hsub n hn) d hd
          rcases hcov d hdg with hdon | hrem
          · exact absurd hdon hdnot
          · obtain ⟨m, hm, hmid⟩ := List.mem_map.mp hrem
            exact ⟨d, hd, m, hm, hmid⟩
      rw [kahnLoop, if_neg hre, if_neg hready]
      apply ih
      · have hpart := (List.filter_append_perm (kahnReady done) rem).length_eq
        rw [List.length_append] at hpart
        have hpos : 0 < (rem.filter (kahnReady done)).length := by
          cases hflt : rem.filter (kahnReady done) with
          | nil => rw [hflt] at hready; simp at hready
          | cons x xs => simp [hflt]
        omega
      · intro n hn
        exact hsub n (List.mem_of_mem_filter hn)
      · intro x hx
        rcases hcov x hx with hdon | hrem
        · left
          rw [List.mem_append]
          exact Or.inl hdon
        · obtain ⟨m, hm, rfl⟩ := List.mem_map.mp hrem
          by_cases hr : kahnReady done m
          · left
            rw [List.mem_append]
            right
            rw [List.mem_map]
            exact ⟨m, List.mem_filter.mpr ⟨hm, by simpa using hr⟩, rfl⟩
          · right
            rw [List.mem_map]
            exact ⟨m, List.mem_filter.mpr ⟨hm, by simpa using hr⟩, rfl⟩

theorem kahnLoop_none_of_cycle (g : List WorkNode)
    (hnodup : (g.map (fun n => n.id)).Nodup)
    (X : Set String) (hXne : X.Nonempty)
    (hXc : ∀ i ∈ X, ∃ n ∈ g, n.id = i ∧ ∃ d ∈ n.deps, d ∈ X) :
    ∀ (fuel : Nat) (done : List String) (rem : List WorkNode) (out : List String),
      (∀ n ∈ rem, n ∈ g) →
      (rem.map (fun n => n.id)).Nodup →
      (∀ i ∈ X, i ∈ rem.map (fun n => n.id)) →
      (∀ x ∈ done, x ∉ rem.map (fun n => n.id)) →
      kahnLoop fuel done rem = some out → False := by
  have hXrem_step : ∀ (done : List String) (rem : List WorkNode),
      (∀ n ∈ rem, n ∈ g) →
      (rem.map (fun n => n.id)).Nodup →
      (∀ i ∈ X, i ∈ rem.map (fun n => n.id)) →
      (∀ x ∈ done, x ∉ rem.map (fun n => n.id)) →
      ∀ i ∈ X, i ∈ (rem.filter (fun n => !(kahnReady done n))).map (fun n => n.id) := by
    intro done rem hsub hnd hXrem hdisj i hi
    obtain ⟨n, hng, hnid, d, hd, hdX⟩ := hXc i hi
    have hirem := hXrem i hi
    obtain ⟨m, hm, hmid⟩ := List.mem_map.mp hirem
    have hmn : m = n := by
      apply List.inj_on_of_nodup_map hnodup
      · exact hsub m hm
      · exact hng
      · rw [hmid, hnid]
    subst hmn
    have hdrem : d ∈ rem.map (fun n => n.id) := hXrem d hdX
    have hdnotdone : d ∉ done := fun hdd => (hdisj d hdd) hdrem
    have hnotready : kahnReady done m = false := by
      by_contra hc
      have := allMem_mem m.deps done (by simpa using hc) d hd
      exact hdnotdone this
    rw [List.mem_map]
    refine ⟨m, List.mem_filter.mpr ⟨hm, by simp [hnotready]⟩, hmid⟩
  intro fuel
  induction fuel with
  | zero =>
    intro done rem out hsub hnd hXrem hdisj hk
    rw [kahnLoop] at hk
    by_cases hempty : rem.isEmpty
    · obtain ⟨i, hi⟩ := hXne
      have hmem := hXrem i hi
      rw [List.isEmpty_iff] at hempty
      rw [hempty] at hmem
      simp at hmem
    · rw [if_neg hempty] at hk
      cases hk
  | succ fuel ih =>
    intro done rem out hsub hnd hXrem hdisj hk
    rw [kahnLoop] at hk
    by_cases hempty : rem.isEmpty
    · obtain ⟨i, hi⟩ := hXne
      have hmem := hXrem i hi
      rw [List.isEmpty_iff] at hempty
      rw [hempty] at hmem
      simp at hmem
    · rw [if_neg hempty] at hk
      by_cases hrdy : (rem.filter (kahnReady done)).isEmpty
      · rw [if_pos hrdy] at hk
        cases hk
      · rw [if_neg hrdy] at hk
        refine ih (done ++ (rem.filter (kahnReady done)).map (fun n => n.id))
          (rem.filter (fun n => !(kahnReady done n))) out ?_ ?_ ?_ ?_ hk
        · intro n hn
          exact hsub n (List.mem_of_mem_filter hn)
        · exact List.Nodup.sublist
            (List.Sublist.map _ (List.filter_sublist rem)) hnd
        · exact hXrem_step done rem hsub hnd hXrem hdisj
        · intro x hx hmem2
          obtain ⟨m2, hm2, hm2id⟩ := List.mem_map.mp hmem2
          rw [List.mem_append] at hx
          rcases hx with hx | hx
          · exact (hdisj x hx) (List.mem_map.mpr
              ⟨m2, List.mem_of_mem_filter hm2, hm2id⟩)
          · obtain ⟨m1, hm1, hm1id⟩ := List.mem_map.mp hx
            have hm12 : m1 = m2 := by
              apply List.inj_on_of_nodup_map hnd
              · exact List.mem_of_mem_filter hm1
              · exact List.mem_of_mem_filter hm2
              · rw [hm1id, hm2id]
            have hr1 : kahnReady done m1 = true := (List.mem_filter.mp hm1).2
            have hr2 : (!(kahnReady done m2)) = true := (List.mem_filter.mp hm2).2
            rw [hm12] at hr1
            simp [hr1] at hr2

theorem build_ok_of_acyclic (arts : List Artifact)
    (hnc : ¬ HasCycle (nodesOf arts)) :
    build arts = Except.ok (nodesOf arts) := by
  obtain ⟨out, hout⟩ := kahnLoop_ok (nodesOf arts) hnc (deps_closed arts)
    ((nodesOf arts).length + 1) [] (nodesOf arts)
    (by omega) (fun n h => h) (fun x hx => Or.inr hx)
  show (match kahnLoop ((nodesOf arts).length + 1) [] (nodesOf arts) with
    | some _ => Except.ok (nodesOf arts)
    | none => Except.error BuildErr.cycleError) = Except.ok (nodesOf arts)
  rw [hout]

theorem build_err_of_cycle (arts : List Artifact)
    (hnodup : ((nodesOf arts).map (fun n => n.id)).Nodup)
    (hc : HasCycle (nodesOf arts)) :
    build arts = Except.error BuildErr.cycleError := by
  show (match kahnLoop ((nodesOf arts).length + 1) [] (nodesOf arts) with
    | some _ => Except.ok (nodesOf arts)
    | none => Except.error BuildErr.cycleError) = Except.error BuildErr.cycleError
  cases hk : kahnLoop ((nodesOf arts).length + 1) [] (nodesOf arts) with
  | none => rfl
  | some out =>
    exfalso
    obtain ⟨X, hXne, hXc⟩ := cycle_set_of_hasCycle _ hc
    refine kahnLoop_none_of_cycle (nodesOf arts) hnodup X hXne hXc
      ((nodesOf arts).length + 1) [] (nodesOf arts) out
      (fun n h => h) hnodup ?_ (by simp) hk
    intro i hi
    obtain ⟨n, hn, hnid, _⟩ := hXc i hi
    exact List.mem_map.mpr ⟨n, hn, hnid⟩

/-- A successful build certifies acyclicity. -/
theorem noCycle_of_build_ok (arts : List Artifact)
    (hnodup : ((nodesOf arts).map (fun n => n.id)).Nodup)
    (h : build arts = Except.ok (nodesOf arts)) : ¬ HasCycle (nodesOf arts) := by
  intro hc
  rw [build_err_of_cycle arts hnodup hc] at h
  cases h

/-! ## End-state lemmas -/

/-- The state in which `execute` ends. -/
def finalState (g : List WorkNode) (c : Nat) (dur : String → Nat)
    (fl : String → Option String) : ExecState :=
  runLoop c dur fl (g.length + 1) (initState g)

theorem execute_events (g : List WorkNode) (c : Nat) (dur : String → Nat)
    (fl : String → Option String) :
    (execute g c dur fl).events = (finalState g c dur fl).trace := rfl

theorem initState_measure (g : List WorkNode) : measureOf (initState g) = g.length := by
  have hpart := (List.filter_append_perm (readyNow []) g).length_eq
  rw [List.length_append] at hpart
  simp only [measureOf, initState, List.length_nil]
  omega

theorem final_inv (g : List WorkNode) (c : Nat) (dur : String → Nat)
    (fl : String → Option String) :
    SchedInv g c fl (finalState g c dur fl) ∧ Halted c (finalState g c dur fl) := by
  have h := runLoop_spec g c dur fl (g.length + 1) (initState g) (initState_inv g c fl)
    (by rw [initState_measure]; omega)
  exact ⟨h.1, h.2.1⟩

theorem dispatched_mem_graph (g : List WorkNode) (c : Nat)
    (fl : String → Option String) (s : ExecState) (hinv : SchedInv g c fl s)
    (n : WorkNode) (hn : Event.dispatchEv n ∈ s.trace) : n ∈ g := by
  apply hinv.perm.mem_iff.mp
  simp [(mem_dispatchList _ n).mpr hn]

theorem final_no_failures (g : List WorkNode) (c : Nat) (dur : String → Nat)
    (fl : String → Option String) (hfl : ∀ n ∈ g, fl n.id = none) :
    failuresIn (finalState g c dur fl).trace = [] := by
  obtain ⟨hinv, _⟩ := final_inv g c dur fl
  cases hcase : failuresIn (finalState g c dur fl).trace with
  | nil => rfl
  | cons pr prs =>
    exfalso
    have hmem : pr ∈ failuresIn (finalState g c dur fl).trace := by
      rw [hcase]; exact List.mem_cons_self _ _
    have hflpr := hinv.failSpec pr hmem
    have hfid : pr.1 ∈ (finalState g c dur fl).failIds := by
      rw [hinv.failEq]
      exact List.mem_map.mpr ⟨pr, hmem, rfl⟩
    have hdid : pr.1 ∈ dispatchIds (finalState g c dur fl).trace :=
      hinv.runPerm.mem_iff.mpr (by simp [hfid])
    obtain ⟨n, hnid, hnev⟩ := (mem_dispatchIds _ _).mp hdid
    have hng : n ∈ g := dispatched_mem_graph g c fl _ hinv n hnev
    have hnone := hfl n hng
    rw [hnid, hflpr] at hnone
    cases hnone

theorem final_all_done (g : List WorkNode) (c : Nat) (dur : String → Nat)
    (fl : String → Option String)
    (hcl : ∀ n ∈ g, ∀ d ∈ n.deps, d ∈ g.map (fun m => m.id))
    (hnc : ¬ HasCycle g) (hc : 0 < c)
    (hfl : ∀ n ∈ g, fl n.id = none) :
    (finalState g c dur fl).pending = [] ∧
    (finalState g c dur fl).queue = [] ∧
    (finalState g c dur fl).running = [] ∧
    List.Perm (dispatchList (finalState g c dur fl).trace) g ∧
    (finalState g c dur fl).firstErr = none := by
  obtain ⟨hinv, hhalt⟩ := final_inv g c dur fl
  have hfails := final_no_failures g c dur fl hfl
  have hfail0 : (finalState g c dur fl).failIds = [] := by
    rw [hinv.failEq, hfails]; rfl
  have herr0 : (finalState g c dur fl).firstErr = none := by
    rw [hinv.errEq, hfails]; rfl
  have hq0 : (finalState g c dur fl).queue = [] := by
    by_contra hne
    exact (hhalt.2 hne) ⟨herr0, hc⟩
  have hdids : List.Perm (dispatchIds (finalState g c dur fl).trace)
      (finalState g c dur fl).doneIds := by
    have h := hinv.runPerm
    rw [hfail0] at h
    simpa [runIds, hhalt.1] using h
  have hpend : (finalState g c dur fl).pending = [] := by
    by_contra hpne
    apply hnc
    apply stuck_cycle g (finalState g c dur fl).pending hpne
    · intro n hn
      exact hinv.perm.mem_iff.mp (by simp [hn])
    · intro n hn
      have hng : n ∈ g := hinv.perm.mem_iff.mp (by simp [hn])
      obtain ⟨d, hd, hdnot⟩ := readyNow_false_mem _ _ (hinv.pendNR n hn)
      have hdg := hcl n hng d hd
      have hmap : List.Perm
          ((finalState g c dur fl).pending.map (fun n => n.id)
            ++ dispatchIds (finalState g c dur fl).trace)
          (g.map fun n => n.id) := by
        have h := hinv.perm.map (fun n => n.id)
        simpa [hq0, dispatchIds] using h
      have hdin : d ∈ (finalState g c dur fl).pending.map (fun n => n.id)
          ++ dispatchIds (finalState g c dur fl).trace := hmap.mem_iff.mpr hdg
      rw [List.mem_append] at hdin
      rcases hdin with hdin | hdin
      · obtain ⟨m, hm, hmid⟩ := List.mem_map.mp hdin
        exact ⟨d, hd, m, hm, hmid⟩
      · exact absurd (by rwa [hdids.mem_iff] at hdin) hdnot
  refine ⟨hpend, hq0, hhalt.1, ?_, herr0⟩
  have h := hinv.perm
  rw [hpend, hq0] at h
  simpa using h

/-- In a well-formed log, every dispatch is preceded by dispatch and
completion of each of the node's dependencies. -/
theorem deps_precede (T : List Event) (hdeps : depsOkFrom [] T)
    (hmat : matchedFrom [] T) (n : WorkNode) (hn : Event.dispatchEv n ∈ T)
    (d : String) (hd : d ∈ n.deps) :
    ∃ m : WorkNode, m.id = d ∧
      List.Sublist [Event.dispatchEv m, Event.completeEv d, Event.dispatchEv n] T := by
  obtain ⟨T1, T2, rfl⟩ := List.append_of_mem hn
  have h1 := depsOk_decomp [] T1 T2 n hdeps d hd
  rw [List.nil_append] at h1
  have h2 := (mem_completesIn T1 d).mp h1
  obtain ⟨U1, U2, rfl⟩ := List.append_of_mem h2
  have hre : (U1 ++ Event.completeEv d :: U2) ++ Event.dispatchEv n :: T2
      = U1 ++ Event.completeEv d :: (U2 ++ Event.dispatchEv n :: T2) := by simp
  rw [hre] at hmat
  have h3 := matched_decomp [] U1 (U2 ++ Event.dispatchEv n :: T2) d hmat
  rw [List.nil_append] at h3
  obtain ⟨m, hmid, hmev⟩ := (mem_dispatchIds U1 d).mp h3
  exact ⟨m, hmid, chain3_sublist _ T2 U1 U2 m n d rfl hmev⟩

/-! ## Concrete scenarios and claim theorems -/

instance instDecEqExcept {e a : Type} [DecidableEq e] [DecidableEq a] :
    DecidableEq (Except e a) := fun x y =>
  match x, y with
  | Except.ok u, Except.ok v =>
    if h : u = v then Decidable.isTrue (by rw [h])
    else Decidable.isFalse (fun hc => h (Except.ok.inj hc))
  | Except.error u, Except.error v =>
    if h : u = v then Decidable.isTrue (by rw [h])
    else Decidable.isFalse (fun hc => h (Except.error.inj hc))
  | Except.ok _, Except.error _ => Decidable.isFalse (fun hc => Except.noConfusion hc)
  | Except.error _, Except.ok _ => Decidable.isFalse (fun hc => Except.noConfusion hc)

/-- Observable action order of a scenario run (the test's `actionedAssets`). -/
def scenarioActions (arts : List Artifact) (c : Nat) : Option (List String) :=
  (deployArtifacts arts c).map actionedOf

/-- Observable outcome of a scenario run. -/
def scenarioOutcome (arts : List Artifact) (c : Nat) : Option (Except String Unit) :=
  (deployArtifacts arts c).map (fun r => r.outcome)

/-- C9: for the empty artifact list, building succeeds and execution at any
concurrency resolves successfully (unit result) with no action invoked. -/
theorem C9_empty_run (c : Nat) (dur : String → Nat) (fl : String → Option String) :
    build [] = Except.ok [] ∧
    (execute [] c dur fl).events = [] ∧
    (execute [] c dur fl).outcome = Except.ok () := by
  exact ⟨rfl, rfl, rfl⟩

/-- C10: dependency entries are resolved purely by artifact id — the kind
brand carried by a placeholder entry is ignored — and the unsorted
scenario `[B(deps stack A), A]` orders `A` before `B`, the placeholder
imposing exactly the ordering constraint of the artifact `A` appearing
later in the input. -/
theorem C10_resolution_by_id :
    (∀ (arts : List Artifact) (i : String) (k1 k2 : ArtKind),
      resolveDep arts ⟨i, k1⟩ = resolveDep arts ⟨i, k2⟩) ∧
    scenarioActions
      [createArtifact "B" ArtKind.stack ["A"] [] 0 none, stackArt "A"] 1
      = some ["A", "B"] ∧
    scenarioOutcome
      [createArtifact "B" ArtKind.stack ["A"] [] 0 none, stackArt "A"] 1
      = some (Except.ok ()) := by
  refine ⟨fun arts i k1 k2 => rfl, by decide, by decide⟩

/-- C6: when the resolved dependency relation of the work nodes has a
cycle, `build` fails with `CycleError`, and consequently the deploy entry
point never reaches `execute`: no action is invoked. -/
theorem C6_cycle_detection (arts : List Artifact)
    (hnodup : ((nodesOf arts).map (fun n => n.id)).Nodup)
    (hc : HasCycle (nodesOf arts)) :
    build arts = Except.error BuildErr.cycleError ∧
    ∀ c, deployArtifacts arts c = none := by
  refine ⟨build_err_of_cycle arts hnodup hc, fun c => ?_⟩
  unfold deployArtifacts
  rw [build_err_of_cycle arts hnodup hc]

/-- The two-stack cycle `A -> B -> A`. -/
def cycArts : List Artifact :=
  [createArtifact "A" ArtKind.stack ["B"] [] 0 none,
   createArtifact "B" ArtKind.stack ["A"] [] 0 none]

theorem C6_cycle_detection_witness :
    build cycArts = Except.error BuildErr.cycleError ∧
    ∀ c, deployArtifacts cycArts c = none :=
  C6_cycle_detection cycArts (by decide)
    ⟨"A", Relation.TransGen.head
      (DepStep.mk ⟨"A", WorkKind.deployStack, ["B"], 0⟩ (by decide) "B" (by decide))
      (Relation.TransGen.single
        (DepStep.mk ⟨"B", WorkKind.deployStack, ["A"], 2⟩ (by decide) "A" (by decide)))⟩

/-! ## Congruence of the graph builder -/

/-- The fields of an artifact that dependency resolution reads. -/
def artKey (a : Artifact) : String × ArtKind := (a.id, a.kind)

/-- The fields of an artifact that the whole graph builder reads. -/
def buildKey (a : Artifact) : String × ArtKind × List DepRef :=
  (a.id, a.kind, a.dependencies)

theorem find?_key_congr (arts1 arts2 : List Artifact) (i : String)
    (h : arts1.map artKey = arts2.map artKey) :
    Option.map artKey (arts1.find? (fun a => a.id == i))
      = Option.map artKey (arts2.find? (fun a => a.id == i)) := by
  induction arts1 generalizing arts2 with
  | nil =>
    cases arts2 with
    | nil => rfl
    | cons b bs => simp at h
  | cons a as ih =>
    cases arts2 with
    | nil => simp at h
    | cons b bs =>
      simp only [List.map_cons, List.cons.injEq] at h
      obtain ⟨hab, hrest⟩ := h
      have hid : a.id = b.id := congrArg Prod.fst hab
      by_cases hi : a.id == i
      · have e1 : (a :: as).find? (fun x => x.id == i) = some a :=
          List.find?_cons_of_pos as hi
        have e2 : (b :: bs).find? (fun x => x.id == i) = some b :=
          List.find?_cons_of_pos bs (by rw [← hid]; exact hi)
        rw [e1, e2]
        simp [hab]
      · have e1 : (a :: as).find? (fun x => x.id == i) = as.find? (fun x => x.id == i) :=
          List.find?_cons_of_neg as hi
        have e2 : (b :: bs).find? (fun x => x.id == i) = bs.find? (fun x => x.id == i) :=
          List.find?_cons_of_neg bs (by rw [← hid]; exact hi)
        rw [e1, e2]
        exact ih bs hrest

theorem resolveDep_congr (arts1 arts2 : List Artifact) (d : DepRef)
    (h : arts1.map artKey = arts2.map artKey) :
    resolveDep arts1 d = resolveDep arts2 d := by
  have hf := find?_key_congr arts1 arts2 d.id h
  unfold resolveDep
  cases h1 : arts1.find? (fun a => a.id == d.id) with
  | none =>
    cases h2 : arts2.find? (fun a => a.id == d.id) with
    | none => rfl
    | some b => rw [h1, h2] at hf; simp at hf
  | some a =>
    cases h2 : arts2.find? (fun a => a.id == d.id) with
    | none => rw [h1, h2] at hf; simp at hf
    | some b =>
      rw [h1, h2] at hf
      have hf2 : some (artKey a) = some (artKey b) := hf
      have hf3 := Option.some.inj hf2
      have hid : a.id = b.id := congrArg Prod.fst hf3
      have hkind : a.kind = b.kind := congrArg Prod.snd hf3
      cases hbk : b.kind with
      | stack => simp [hkind.trans hbk, hbk, hid]
      | asset => simp [hkind.trans hbk, hbk, hid]

theorem artifactNodes_congr (A1 A2 : List Artifact) (i : Nat) (a b : Artifact)
    (hab : buildKey a = buildKey b)
    (hA : A1.map artKey = A2.map artKey) :
    artifactNodes A1 i a = artifactNodes A2 i b := by
  have hid : a.id = b.id := congrArg Prod.fst hab
  have hkind : a.kind = b.kind := congrArg (fun p => p.2.1) hab
  have hdeps : a.dependencies = b.dependencies := congrArg (fun p => p.2.2) hab
  have hres : a.dependencies.filterMap (resolveDep A1)
      = b.dependencies.filterMap (resolveDep A2) := by
    rw [← hdeps]
    apply List.filterMap_congr
    intro d _
    exact resolveDep_congr A1 A2 d hA
  cases hbk : b.kind with
  | stack => simp [artifactNodes, hkind.trans hbk, hbk, hid, hres]
  | asset => simp [artifactNodes, hkind.trans hbk, hbk, hid, hres]

theorem nodesOf_congr (arts1 arts2 : List Artifact)
    (h : arts1.map buildKey = arts2.map buildKey) :
    nodesOf arts1 = nodesOf arts2 := by
  have hkey : arts1.map artKey = arts2.map artKey := by
    have h2 := congrArg (List.map (fun p : String × ArtKind × List DepRef => (p.1, p.2.1))) h
    simpa [List.map_map, Function.comp, artKey, buildKey] using h2
  unfold nodesOf
  have hgen : ∀ (l1 l2 : List Artifact) (k : Nat),
      l1.map buildKey = l2.map buildKey →
      ((List.enumFrom k l1).map (fun p => artifactNodes arts1 p.1 p.2)).flatten
        = ((List.enumFrom k l2).map (fun p => artifactNodes arts2 p.1 p.2)).flatten := by
    intro l1
    induction l1 with
    | nil =>
      intro l2 k hl
      cases l2 with
      | nil => rfl
      | cons b bs => simp at hl
    | cons a as ih =>
      intro l2 k hl
      cases l2 with
      | nil => simp at hl
      | cons b bs =>
        simp only [List.map_cons, List.cons.injEq] at hl
        obtain ⟨hab, hrest⟩ := hl
        simp only [List.enumFrom, List.map_cons, List.flatten_cons]
        rw [artifactNodes_congr arts1 arts2 k a b hab hkey, ih bs (k + 1) hrest]
  have henum1 : arts1.enum = List.enumFrom 0 arts1 := rfl
  have henum2 : arts2.enum = List.enumFrom 0 arts2 := rfl
  rw [henum1, henum2]
  exact hgen arts1 arts2 0 h

theorem resolveDep_none_of_absent (arts : List Artifact) (d : DepRef)
    (h : ∀ a ∈ arts, a.id ≠ d.id) : resolveDep arts d = none := by
  unfold resolveDep
  have hf : arts.find? (fun a => a.id == d.id) = none := by
    rw [List.find?_eq_none]
    intro a ha
    simp [h a ha]
  rw [hf]

/-- Strip the dependency entries whose id names no artifact of the run. -/
def elideDangling (arts : List Artifact) (a : Artifact) : Artifact :=
  { a with dependencies :=
      a.dependencies.filter (fun d => (arts.map (fun x => x.id)).contains d.id) }

theorem filterMap_elide (arts : List Artifact) (l : List DepRef) :
    (l.filter (fun d => (arts.map (fun x => x.id)).contains d.id)).filterMap
      (resolveDep arts) = l.filterMap (resolveDep arts) := by
  induction l with
  | nil => rfl
  | cons d rest ih =>
    by_cases hp : (arts.map (fun x => x.id)).contains d.id
    · have e1 : List.filter (fun x => (arts.map (fun y => y.id)).contains x.id) (d :: rest)
          = d :: List.filter (fun x => (arts.map (fun y => y.id)).contains x.id) rest := by
        simp only [List.filter_cons]
        rw [if_pos hp]
      rw [e1, List.filterMap_cons, List.filterMap_cons]
      cases resolveDep arts d <;> rw [ih]
    · have hnone : resolveDep arts d = none := by
        apply resolveDep_none_of_absent
        intro a ha hid
        apply hp
        simp only [List.contains_eq_any_beq, List.any_eq_true]
        exact ⟨a.id, List.mem_map.mpr ⟨a, ha, rfl⟩, by simp [hid]⟩
      have e1 : List.filter (fun x => (arts.map (fun y => y.id)).contains x.id) (d :: rest)
          = List.filter (fun x => (arts.map (fun y => y.id)).contains x.id) rest := by
        simp only [List.filter_cons]
        rw [if_neg (by simpa using hp)]
      rw [e1, List.filterMap_cons, hnone, ih]

theorem artifactNodes_elide (arts : List Artifact) (i : Nat) (a : Artifact) :
    artifactNodes (arts.map (elideDangling arts)) i (elideDangling arts a)
      = artifactNodes arts i a := by
  have hkey : (arts.map (elideDangling arts)).map artKey = arts.map artKey := by
    simp [List.map_map, Function.comp, artKey, elideDangling]
  have hres : (elideDangling arts a).dependencies.filterMap
      (resolveDep (arts.map (elideDangling arts)))
      = a.dependencies.filterMap (resolveDep arts) := by
    have h1 : (elideDangling arts a).dependencies.filterMap
        (resolveDep (arts.map (elideDangling arts)))
        = (elideDangling arts a).dependencies.filterMap (resolveDep arts) :=
      List.filterMap_congr (fun d _ => resolveDep_congr _ _ d hkey)
    rw [h1]
    exact filterMap_elide arts a.dependencies
  cases hk : a.kind with
  | stack =>
    simp only [artifactNodes, elideDangling, hk] at hres ⊢
    rw [hres]
  | asset =>
    simp only [artifactNodes, elideDangling, hk] at hres ⊢
    rw [hres]

theorem nodesOf_elide (arts : List Artifact) :
    nodesOf (arts.map (elideDangling arts)) = nodesOf arts := by
  have hgen : ∀ (l : List Artifact) (k : Nat),
      ((List.enumFrom k (l.map (elideDangling arts))).map
        (fun p => artifactNodes (arts.map (elideDangling arts)) p.1 p.2)).flatten
      = ((List.enumFrom k l).map (fun p => artifactNodes arts p.1 p.2)).flatten := by
    intro l
    induction l with
    | nil => intro k; rfl
    | cons a as ih =>
      intro k
      simp only [List.map_cons, List.enumFrom, List.flatten_cons]
      rw [artifactNodes_elide arts k a, ih (k + 1)]
  exact hgen arts 0

/-- C5: a dependency id naming no artifact of the input imposes no
constraint: resolution drops it, the graph is the same as if the entry
were absent, and the concrete scenario `[B(deps stack A)]` with `A`
unselected runs successfully invoking only `B`. -/
theorem C5_dangling_elision :
    (∀ (arts : List Artifact) (d : DepRef),
      (∀ a ∈ arts, a.id ≠ d.id) → resolveDep arts d = none) ∧
    (∀ arts : List Artifact,
      nodesOf (arts.map (elideDangling arts)) = nodesOf arts) ∧
    scenarioActions [createArtifact "B" ArtKind.stack ["A"] [] 0 none] 1
      = some ["B"] ∧
    scenarioOutcome [createArtifact "B" ArtKind.stack ["A"] [] 0 none] 1
      = some (Except.ok ()) :=
  ⟨resolveDep_none_of_absent, nodesOf_elide, by decide, by decide⟩

theorem C5_dangling_elision_witness :
    resolveDep [stackArt "B"] ⟨"A", ArtKind.stack⟩ = none ∧
    nodesOf ([stackArt "B"].map (elideDangling [stackArt "B"]))
      = nodesOf [stackArt "B"] :=
  ⟨C5_dangling_elision.1 [stackArt "B"] ⟨"A", ArtKind.stack⟩ (by decide),
   C5_dangling_elision.2.1 [stackArt "B"]⟩

/-! ## Determinism -/

/-- Forget the simulated clock and per-node finish times. -/
def stripTimes (s : ExecState) : ExecState :=
  { s with running := s.running.map (fun p => (p.1, 0)), now := 0 }

theorem stripTimes_fields (s1 s2 : ExecState) (h : stripTimes s1 = stripTimes s2) :
    s1.pending = s2.pending ∧ s1.queue = s2.queue ∧
    s1.running.map (fun p => (p.1, 0)) = s2.running.map (fun p => (p.1, 0)) ∧
    s1.doneIds = s2.doneIds ∧ s1.failIds = s2.failIds ∧
    s1.firstErr = s2.firstErr ∧ s1.trace = s2.trace := by
  cases s1
  cases s2
  simp only [stripTimes] at h
  injection h with h1 h2 h3 h4 h5 h6 h7 h8
  exact ⟨h1, h2, h3, h4, h5, h6, h7⟩

theorem dispatchPhase_runCap (c : Nat) (dur : String → Nat) :
    ∀ (q : List WorkNode) (s : ExecState), s.running.length ≤ c →
      (dispatchPhase c dur q s).running.length ≤ c := by
  intro q
  induction q with
  | nil => intro s h; simpa [dispatchPhase] using h
  | cons n rest ih =>
    intro s h
    by_cases hg : s.firstErr = none ∧ s.running.length < c
    · rw [dispatchPhase, if_pos hg]
      apply ih
      simp only [List.length_append, List.length_cons, List.length_nil]
      omega
    · rw [dispatchPhase, if_neg hg]
      exact h

theorem dispatchPhase_time_agnostic (dur1 dur2 : String → Nat) :
    ∀ (q : List WorkNode) (s1 s2 : ExecState), stripTimes s1 = stripTimes s2 →
      stripTimes (dispatchPhase 1 dur1 q s1) = stripTimes (dispatchPhase 1 dur2 q s2) := by
  intro q
  induction q with
  | nil => intro s1 s2 h; simpa [dispatchPhase] using h
  | cons n rest ih =>
    intro s1 s2 h
    obtain ⟨h1, h2, h3, h4, h5, h6, h7⟩ := stripTimes_fields s1 s2 h
    have hlen : s1.running.length = s2.running.length := by
      have := congrArg List.length h3
      simpa using this
    rw [dispatchPhase, dispatchPhase]
    by_cases hg : s1.firstErr = none ∧ s1.running.length < 1
    · rw [if_pos hg, if_pos (by rw [← h6, ← hlen]; exact hg)]
      apply ih
      simp only [stripTimes, List.map_append]
      rw [h1, h3, h4, h5, h6, h7]
      simp
    · rw [if_neg hg, if_neg (by rw [← h6, ← hlen]; exact hg)]
      exact h

theorem completeNode_time_agnostic (fl : String → Option String) (n : WorkNode)
    (s1 s2 : ExecState) (h : stripTimes s1 = stripTimes s2) :
    stripTimes (completeNode fl n s1) = stripTimes (completeNode fl n s2) := by
  obtain ⟨h1, h2, h3, h4, h5, h6, h7⟩ := stripTimes_fields s1 s2 h
  cases hfl : fl n.id with
  | none =>
    simp only [completeNode, hfl, stripTimes]
    rw [h1, h2, h4, h3, h6, h5, h7]
  | some e =>
    simp only [completeNode, hfl, stripTimes]
    rw [h1, h2, h4, h3, h6, h5, h7]

theorem runLoop_time_agnostic (dur1 dur2 : String → Nat) (fl : String → Option String) :
    ∀ (fuel : Nat) (s1 s2 : ExecState),
      s1.running.length ≤ 1 → s2.running.length ≤ 1 →
      stripTimes s1 = stripTimes s2 →
      stripTimes (runLoop 1 dur1 fl fuel s1) = stripTimes (runLoop 1 dur2 fl fuel s2) := by
  intro fuel
  induction fuel with
  | zero => intro s1 s2 _ _ h; simpa [runLoop] using h
  | succ fuel ih =>
    intro s1 s2 hl1 hl2 h
    obtain ⟨_, hq, _, _, _, _, _⟩ := stripTimes_fields s1 s2 h
    have hd : stripTimes (dispatchPhase 1 dur1 s1.queue s1)
        = stripTimes (dispatchPhase 1 dur2 s2.queue s2) := by
      rw [← hq]
      exact dispatchPhase_time_agnostic dur1 dur2 s1.queue s1 s2 h
    have hb1 : (dispatchPhase 1 dur1 s1.queue s1).running.length ≤ 1 :=
      dispatchPhase_runCap 1 dur1 s1.queue s1 hl1
    have hb2 : (dispatchPhase 1 dur2 s2.queue s2).running.length ≤ 1 :=
      dispatchPhase_runCap 1 dur2 s2.queue s2 hl2
    obtain ⟨g1, g2, g3, g4, g5, g6, g7⟩ := stripTimes_fields _ _ hd
    rw [runLoop, runLoop]
    simp only [dispatchAll]
    cases hr1 : (dispatchPhase 1 dur1 s1.queue s1).running with
    | nil =>
      have hr2 : (dispatchPhase 1 dur2 s2.queue s2).running = [] := by
        rw [hr1] at g3
        exact List.map_eq_nil_iff.mp g3.symm
      rw [hr2]
      simpa [pickEarliest] using hd
    | cons p1 rest1 =>
      have hrest1 : rest1 = [] := by
        rw [hr1] at hb1
        simp only [List.length_cons] at hb1
        exact List.length_eq_zero.mp (by omega)
      cases hr2 : (dispatchPhase 1 dur2 s2.queue s2).running with
      | nil =>
        rw [hr2] at g3
        rw [hr1, hrest1] at g3
        simp at g3
      | cons p2 rest2 =>
        have hrest2 : rest2 = [] := by
          rw [hr2] at hb2
          simp only [List.length_cons] at hb2
          exact List.length_eq_zero.mp (by omega)
        have hp12 : p1.1 = p2.1 := by
          rw [hr1, hrest1, hr2, hrest2] at g3
          simp only [List.map_cons, List.map_nil, List.cons.injEq, Prod.mk.injEq] at g3
          exact g3.1.1
        rw [hrest1, hrest2]
        simp only [pickEarliest]
        apply ih
        · cases hfl : fl p1.1.id <;> simp [completeNode, hfl]
        · cases hfl : fl p2.1.id <;> simp [completeNode, hfl]
        · rw [hp12]
          apply completeNode_time_agnostic
          simp only [stripTimes, List.map_nil]
          rw [g1, g2, g4, g5, g6, g7]
  
/-- C8: the graph builder is a pure function of the id, kind and
dependency fields of the input (the timing and error fields the tests
carry do not influence it), and at concurrency 1 the event log of an
execution does not depend on action durations at all: two runs of the
same graph dispatch identically. -/
theorem C8_deterministic :
    (∀ arts1 arts2 : List Artifact,
      arts1.map buildKey = arts2.map buildKey → build arts1 = build arts2) ∧
    (∀ (g : List WorkNode) (dur1 dur2 : String → Nat) (fl : String → Option String),
      (execute g 1 dur1 fl).events = (execute g 1 dur2 fl).events) := by
  constructor
  · intro arts1 arts2 h
    have hn := nodesOf_congr arts1 arts2 h
    simp only [build, hn]
  · intro g dur1 dur2 fl
    have h := runLoop_time_agnostic dur1 dur2 fl (g.length + 1)
      (initState g) (initState g) (by simp [initState]) (by simp [initState]) rfl
    obtain ⟨_, _, _, _, _, _, h7⟩ := stripTimes_fields _ _ h
    rw [execute_events, execute_events]
    exact h7

theorem C8_deterministic_witness :
    build [stackArt "A"] = build [createArtifact "A" ArtKind.stack [] [] 200 (some "x")] ∧
    (execute (nodesOf [stackArt "A"]) 1 (fun _ => 0) (fun _ => none)).events
      = (execute (nodesOf [stackArt "A"]) 1 (fun _ => 200) (fun _ => none)).events :=
  ⟨C8_deterministic.1 [stackArt "A"]
      [createArtifact "A" ArtKind.stack [] [] 200 (some "x")] (by decide),
   C8_deterministic.2 (nodesOf [stackArt "A"]) (fun _ => 0) (fun _ => 200) (fun _ => none)⟩

/-! ## Asset expansion -/

theorem find?_self_of_nodup (arts : List Artifact) (a : Artifact)
    (ha : a ∈ arts) (hnodup : (arts.map (fun x => x.id)).Nodup) :
    arts.find? (fun x => x.id == a.id) = some a := by
  cases hf : arts.find? (fun x => x.id == a.id) with
  | none =>
    rw [List.find?_eq_none] at hf
    exact absurd (by simp) (hf a ha)
  | some b =>
    have hb : b ∈ arts := List.mem_of_find?_eq_some hf
    have hbid : b.id = a.id := by simpa using List.find?_some hf
    have hba : b = a := List.inj_on_of_nodup_map hnodup hb ha hbid
    rw [hba]

/-- C2: an asset artifact expands into exactly the two nodes `A-build`
(kind `build-asset`) and `A-publish` (kind `publish-asset`), the publish
node depending on the build node; every dependency entry naming the asset
resolves to `A-publish`; and in every execution a dispatched node's
action is invoked only after each of its dependencies has been both
invoked and completed — in particular `publishAsset(A)` after
`buildAsset(A)`, and every consumer of the asset after
`publishAsset(A)`. -/
theorem C2_asset_expansion (arts : List Artifact) (a : Artifact) (c : Nat)
    (dur : String → Nat) (fl : String → Option String)
    (ha : a ∈ arts) (hk : a.kind = ArtKind.asset)
    (hnodup : (arts.map (fun x => x.id)).Nodup) :
    (∀ i, artifactNodes arts i a =
      [⟨a.id ++ "-build", WorkKind.buildAsset,
        a.dependencies.filterMap (resolveDep arts), 2 * i⟩,
       ⟨a.id ++ "-publish", WorkKind.publishAsset, [a.id ++ "-build"], 2 * i + 1⟩]) ∧
    (∀ d : DepRef, d.id = a.id → resolveDep arts d = some (a.id ++ "-publish")) ∧
    (∀ n, Event.dispatchEv n ∈ (execute (nodesOf arts) c dur fl).events →
      ∀ d ∈ n.deps, ∃ m : WorkNode, m.id = d ∧
        List.Sublist [Event.dispatchEv m, Event.completeEv d, Event.dispatchEv n]
          (execute (nodesOf arts) c dur fl).events) := by
  refine ⟨?_, ?_, ?_⟩
  · intro i
    simp [artifactNodes, hk]
  · intro d hd
    unfold resolveDep
    rw [hd, find?_self_of_nodup arts a ha hnodup]
    have h2 : (match a.kind with
      | ArtKind.stack => some a.id
      | ArtKind.asset => some (a.id ++ "-publish")) = some (a.id ++ "-publish") := by
      rw [hk]
    exact h2
  · intro n hn d hd
    obtain ⟨hinv, _⟩ := final_inv (nodesOf arts) c dur fl
    rw [execute_events] at hn ⊢
    exact deps_precede _ hinv.depsOk hinv.matched n hn d hd

theorem C2_asset_expansion_witness :
    (∀ i, artifactNodes
        [createArtifact "A" ArtKind.stack [] ["a"] 0 none,
         createArtifact "a" ArtKind.asset [] [] 0 none] i
        (createArtifact "a" ArtKind.asset [] [] 0 none) =
      [⟨"a" ++ "-build", WorkKind.buildAsset, [], 2 * i⟩,
       ⟨"a" ++ "-publish", WorkKind.publishAsset, ["a" ++ "-build"], 2 * i + 1⟩]) ∧
    (∀ d : DepRef, d.id = "a" →
      resolveDep [createArtifact "A" ArtKind.stack [] ["a"] 0 none,
        createArtifact "a" ArtKind.asset [] [] 0 none] d
        = some ("a" ++ "-publish")) ∧
    (∀ n, Event.dispatchEv n ∈ (execute (nodesOf
        [createArtifact "A" ArtKind.stack [] ["a"] 0 none,
         createArtifact "a" ArtKind.asset [] [] 0 none]) 1
          (fun _ => 0) (fun _ => none)).events →
      ∀ d ∈ n.deps, ∃ m : WorkNode, m.id = d ∧
        List.Sublist [Event.dispatchEv m, Event.completeEv d, Event.dispatchEv n]
          (execute (nodesOf
            [createArtifact "A" ArtKind.stack [] ["a"] 0 none,
             createArtifact "a" ArtKind.asset [] [] 0 none]) 1
              (fun _ => 0) (fun _ => none)).events) :=
  C2_asset_expansion
    [createArtifact "A" ArtKind.stack [] ["a"] 0 none,
     createArtifact "a" ArtKind.asset [] [] 0 none]
    (createArtifact "a" ArtKind.asset [] [] 0 none) 1 (fun _ => 0) (fun _ => none)
    (by decide) rfl (by decide)

/-- C1: for an acyclic artifact list, `build` succeeds and executing the
graph at concurrency 1 (with all actions succeeding) invokes every node's
action exactly once — the dispatch log is a permutation of the node list —
and every node is dispatched strictly after the dispatch (indeed the
completion) of each of its in-graph dependencies. -/
theorem C1_topological_execution (arts : List Artifact) (dur : String → Nat)
    (fl : String → Option String)
    (hnc : ¬ HasCycle (nodesOf arts))
    (hfl : ∀ n ∈ nodesOf arts, fl n.id = none) :
    build arts = Except.ok (nodesOf arts) ∧
    List.Perm (dispatchList (execute (nodesOf arts) 1 dur fl).events) (nodesOf arts) ∧
    (execute (nodesOf arts) 1 dur fl).outcome = Except.ok () ∧
    (∀ n ∈ nodesOf arts, ∀ d ∈ n.deps, ∃ m : WorkNode, m.id = d ∧
      List.Sublist [Event.dispatchEv m, Event.dispatchEv n]
        (execute (nodesOf arts) 1 dur fl).events) := by
  have hbuild := build_ok_of_acyclic arts hnc
  obtain ⟨hp0, hq0, hr0, hdperm, herr0⟩ := final_all_done (nodesOf arts) 1 dur fl
    (deps_closed arts) hnc (by omega) hfl
  obtain ⟨hinv, hhalt⟩ := final_inv (nodesOf arts) 1 dur fl
  refine ⟨hbuild, ?_, ?_, ?_⟩
  · rw [execute_events]
    exact hdperm
  · show (match (finalState (nodesOf arts) 1 dur fl).firstErr with
      | none => Except.ok ()
      | some e => Except.error e) = Except.ok ()
    rw [herr0]
  · intro n hn d hd
    have hnev : Event.dispatchEv n ∈ (finalState (nodesOf arts) 1 dur fl).trace := by
      rw [← mem_dispatchList]
      exact hdperm.mem_iff.mpr hn
    obtain ⟨m, hmid, hsub⟩ := deps_precede _ hinv.depsOk hinv.matched n hnev d hd
    refine ⟨m, hmid, ?_⟩
    rw [execute_events]
    refine List.Sublist.trans ?_ hsub
    exact List.Sublist.cons₂ _ (List.Sublist.cons _ (List.Sublist.refl _))

theorem C1_topological_execution_witness :
    build [stackArt "A", createArtifact "B" ArtKind.stack ["A"] [] 0 none]
      = Except.ok (nodesOf [stackArt "A", createArtifact "B" ArtKind.stack ["A"] [] 0 none]) ∧
    List.Perm (dispatchList (execute
      (nodesOf [stackArt "A", createArtifact "B" ArtKind.stack ["A"] [] 0 none]) 1
      (fun _ => 0) (fun _ => none)).events)
      (nodesOf [stackArt "A", createArtifact "B" ArtKind.stack ["A"] [] 0 none]) ∧
    (execute (nodesOf [stackArt "A", createArtifact "B" ArtKind.stack ["A"] [] 0 none]) 1
      (fun _ => 0) (fun _ => none)).outcome = Except.ok () ∧
    (∀ n ∈ nodesOf [stackArt "A", createArtifact "B" ArtKind.stack ["A"] [] 0 none],
      ∀ d ∈ n.deps, ∃ m : WorkNode, m.id = d ∧
        List.Sublist [Event.dispatchEv m, Event.dispatchEv n]
          (execute (nodesOf [stackArt "A", createArtifact "B" ArtKind.stack ["A"] [] 0 none]) 1
            (fun _ => 0) (fun _ => none)).events) :=
  C1_topological_execution
    [stackArt "A", createArtifact "B" ArtKind.stack ["A"] [] 0 none]
    (fun _ => 0) (fun _ => none)
    (noCycle_of_build_ok _ (by decide) (by decide))
    (fun n _ => rfl)

/-! ## Failure containment -/

theorem mem_failuresIn (T : List Event) (i m : String) :
    (i, m) ∈ failuresIn T ↔ Event.failEv i m ∈ T := by
  induction T with
  | nil => simp [failuresIn]
  | cons e t ih =>
    cases e with
    | dispatchEv n => simp [failuresIn] at ih ⊢; simpa using ih
    | completeEv j => simp [failuresIn] at ih ⊢; simpa using ih
    | failEv j mm => simp [failuresIn] at ih ⊢; rw [ih]

theorem dispatchIds_nodup (g : List WorkNode) (c : Nat)
    (fl : String → Option String) (s : ExecState) (hinv : SchedInv g c fl s)
    (hnodup : (g.map (fun n => n.id)).Nodup) :
    (dispatchIds s.trace).Nodup := by
  have h := (hinv.perm.map (fun n => n.id)).nodup_iff.mpr hnodup
  rw [List.map_append, List.map_append] at h
  exact List.Nodup.sublist (List.sublist_append_right _ _) h

theorem done_fail_disjoint (g : List WorkNode) (c : Nat)
    (fl : String → Option String) (s : ExecState) (hinv : SchedInv g c fl s)
    (hnodup : (g.map (fun n => n.id)).Nodup) :
    ∀ x, x ∈ s.doneIds → x ∉ s.failIds := by
  have hd := dispatchIds_nodup g c fl s hinv hnodup
  have h3 : (runIds s ++ s.doneIds ++ s.failIds).Nodup := hinv.runPerm.nodup_iff.mp hd
  have h4 : (s.doneIds ++ s.failIds).Nodup := by
    refine List.Nodup.sublist ?_ h3
    rw [List.append_assoc]
    exact List.sublist_append_right _ _
  intro x hx hxf
  exact (List.disjoint_of_nodup_append h4) hx hxf

theorem done_implies_dispatched (g : List WorkNode) (c : Nat)
    (fl : String → Option String) (s : ExecState) (hinv : SchedInv g c fl s)
    (y : String) (hy : y ∈ s.doneIds) : y ∈ dispatchIds s.trace :=
  hinv.runPerm.mem_iff.mpr (by simp [hy])

theorem dispatched_deps_done_final (g : List WorkNode) (c : Nat)
    (fl : String → Option String) (s : ExecState) (hinv : SchedInv g c fl s)
    (hnodup : (g.map (fun n => n.id)).Nodup)
    (n : WorkNode) (hng : n ∈ g) (hy : n.id ∈ dispatchIds s.trace) :
    ∀ d ∈ n.deps, d ∈ s.doneIds := by
  obtain ⟨m, hmid, hmev⟩ := (mem_dispatchIds _ _).mp hy
  have hmg : m ∈ g := dispatched_mem_graph g c fl s hinv m hmev
  have hmn : m = n := List.inj_on_of_nodup_map hnodup hmg hng hmid
  subst hmn
  obtain ⟨T1, T2, hT⟩ := List.append_of_mem hmev
  intro d hd
  have hdeps := hinv.depsOk
  rw [hT] at hdeps
  have h1 := depsOk_decomp [] T1 T2 m hdeps d hd
  rw [List.nil_append] at h1
  rw [hinv.doneEq, hT, completesIn_append]
  exact List.mem_append.mpr (Or.inl h1)

theorem dependents_never_dispatched (g : List WorkNode) (c : Nat)
    (fl : String → Option String) (s : ExecState) (hinv : SchedInv g c fl s)
    (hnodup : (g.map (fun n => n.id)).Nodup)
    (f : String) (hf : f ∈ s.failIds) :
    ∀ y, Relation.TransGen (DepStep g) y f →
      y ∉ s.doneIds ∧ y ∉ dispatchIds s.trace := by
  have hdisj := done_fail_disjoint g c fl s hinv hnodup
  have hfnd : f ∉ s.doneIds := fun hy => hdisj f hy hf
  have hkey : ∀ nn : WorkNode, nn ∈ g → ∀ z, z ∈ nn.deps → z ∉ s.doneIds →
      nn.id ∉ s.doneIds ∧ nn.id ∉ dispatchIds s.trace := by
    intro nn hng z hz hznd
    constructor
    · intro hdone
      exact hznd (dispatched_deps_done_final g c fl s hinv hnodup nn hng
        (done_implies_dispatched g c fl s hinv nn.id hdone) z hz)
    · intro hdisp
      exact hznd (dispatched_deps_done_final g c fl s hinv hnodup nn hng hdisp z hz)
  intro y hy
  refine Relation.TransGen.head_induction_on hy ?_ ?_
  · intro a hstep
    cases hstep with
    | mk nn hng hd => exact hkey nn hng f ‹f ∈ nn.deps› hfnd
  · intro a b hstep _ IH
    cases hstep with
    | mk nn hng hd => exact hkey nn hng b ‹b ∈ nn.deps› IH.1

theorem length_filter_mono_pred {α : Type _} (l : List α) (p q : α → Bool)
    (h : ∀ a ∈ l, p a = true → q a = true) :
    (l.filter p).length ≤ (l.filter q).length := by
  induction l with
  | nil => simp
  | cons a rest ih =>
    have ih2 := ih (fun x hx hpx => h x (List.mem_cons_of_mem _ hx) hpx)
    simp only [List.filter_cons]
    by_cases hp : p a = true
    · have hq := h a (List.mem_cons_self _ _) hp
      simp only [hp, hq, if_true, List.length_cons]
      omega
    · have hpb : p a = false := by simpa using hp
      simp only [hpb, Bool.false_eq_true, if_false]
      by_cases hq2 : q a = true
      · simp only [hq2, if_true, List.length_cons]
        omega
      · have hqb : q a = false := by simpa using hq2
        simp only [hqb, Bool.false_eq_true, if_false]
        exact ih2

theorem length_filter_lt_pred {α : Type _} (l : List α) (p q : α → Bool)
    (h : ∀ a ∈ l, p a = true → q a = true)
    (a0 : α) (ha0 : a0 ∈ l) (hq0 : q a0 = true) (hp0 : p a0 = false) :
    (l.filter p).length < (l.filter q).length := by
  induction l with
  | nil => cases ha0
  | cons a rest ih =>
    rcases List.mem_cons.mp ha0 with rfl | hmem
    · simp only [List.filter_cons, hp0, hq0, Bool.false_eq_true, if_false, if_true,
        List.length_cons]
      have := length_filter_mono_pred rest p q
        (fun x hx hpx => h x (List.mem_cons_of_mem _ hx) hpx)
      omega
    · have ih2 := ih (fun x hx hpx => h x (List.mem_cons_of_mem _ hx) hpx) hmem
      simp only [List.filter_cons]
      by_cases hp : p a = true
      · have hq := h a (List.mem_cons_self _ _) hp
        simp only [hp, hq, if_true, List.length_cons]
        omega
      · have hpb : p a = false := by simpa using hp
        simp only [hpb, Bool.false_eq_true, if_false]
        by_cases hq2 : q a = true
        · simp only [hq2, if_true, List.length_cons]
          omega
        · have hqb : q a = false := by simpa using hq2
          simp only [hqb, Bool.false_eq_true, if_false]
          exact ih2

theorem dependentsClosure_grows (g : List WorkNode) :
    ∀ (fuel : Nat) (acc : List String) (x : String), x ∈ acc →
      x ∈ dependentsClosure g fuel acc := by
  intro fuel
  induction fuel with
  | zero => intro acc x hx; exact hx
  | succ fuel ih =>
    intro acc x hx
    rw [dependentsClosure]
    by_cases he : ((g.filter (fun n =>
        !(acc.contains n.id) && n.deps.any (fun d => acc.contains d))).map
          (fun n => n.id)).isEmpty
    · rw [if_pos he]
      exact hx
    · rw [if_neg he]
      exact ih _ x (List.mem_append.mpr (Or.inl hx))

theorem dependentsClosure_closed (g : List WorkNode) :
    ∀ (fuel : Nat) (acc : List String),
      (g.filter (fun n => !(acc.contains n.id))).length < fuel →
      ∀ n ∈ g, (∃ d ∈ n.deps, d ∈ dependentsClosure g fuel acc) →
        n.id ∈ dependentsClosure g fuel acc := by
  intro fuel
  induction fuel with
  | zero => intro acc h; omega
  | succ fuel ih =>
    intro acc hm n hng hdep
    rw [dependentsClosure] at hdep ⊢
    by_cases he : ((g.filter (fun n =>
        !(acc.contains n.id) && n.deps.any (fun d => acc.contains d))).map
          (fun n => n.id)).isEmpty
    · rw [if_pos he] at hdep ⊢
      obtain ⟨d, hd, hdacc⟩ := hdep
      by_contra hni
      have hmem : n ∈ g.filter (fun n =>
          !(acc.contains n.id) && n.deps.any (fun d => acc.contains d)) := by
        rw [List.mem_filter]
        refine ⟨hng, ?_⟩
        rw [Bool.and_eq_true]
        constructor
        · simpa using hni
        · rw [List.any_eq_true]
          exact ⟨d, hd, by simpa using hdacc⟩
      rw [List.isEmpty_iff] at he
      have hfnil := List.map_eq_nil_iff.mp he
      rw [hfnil] at hmem
      cases hmem
    · rw [if_neg he] at hdep ⊢
      apply ih _ ?_ n hng hdep
      rw [List.isEmpty_iff] at he
      have hne : g.filter (fun n =>
          !(acc.contains n.id) && n.deps.any (fun d => acc.contains d)) ≠ [] := by
        intro hnil
        apply he
        rw [hnil]
        rfl
      obtain ⟨n0, hn0⟩ := List.exists_mem_of_ne_nil _ hne
      have hn0g : n0 ∈ g := List.mem_of_mem_filter hn0
      have hn0p := (List.mem_filter.mp hn0).2
      rw [Bool.and_eq_true] at hn0p
      have hq0 : (!(acc.contains n0.id)) = true := hn0p.1
      have hp0 : (!((acc ++ (g.filter (fun n =>
          !(acc.contains n.id) && n.deps.any (fun d => acc.contains d))).map
            (fun n => n.id)).contains n0.id)) = false := by
        have : n0.id ∈ acc ++ (g.filter (fun n =>
            !(acc.contains n.id) && n.deps.any (fun d => acc.contains d))).map
              (fun n => n.id) :=
          List.mem_append.mpr (Or.inr (List.mem_map.mpr ⟨n0, hn0, rfl⟩))
        simpa using this
      have hlt := length_filter_lt_pred g
        (fun n => !((acc ++ (g.filter (fun n =>
          !(acc.contains n.id) && n.deps.any (fun d => acc.contains d))).map
            (fun n => n.id)).contains n.id))
        (fun n => !(acc.contains n.id))
        (fun a _ hpa => by
          simp at hpa ⊢
          exact hpa.1)
        n0 hn0g hq0 hp0
      omega

theorem dependents_in_closure (g : List WorkNode) (failed : List String) :
    ∀ (x f : String), f ∈ failed → Relation.TransGen (DepStep g) x f →
      x ∈ dependentsClosure g (g.length + 1) failed := by
  have hmB : (g.filter (fun n => !(failed.contains n.id))).length < g.length + 1 :=
    Nat.lt_succ_of_le (List.length_filter_le _ _)
  intro x f hf htg
  refine Relation.TransGen.head_induction_on htg ?_ ?_
  · intro a hstep
    cases hstep with
    | mk nn hng hd =>
      exact dependentsClosure_closed g (g.length + 1) failed hmB nn hng
        ⟨f, ‹f ∈ nn.deps›, dependentsClosure_grows g _ failed f hf⟩
  · intro a b hstep _ IH
    cases hstep with
    | mk nn hng hd =>
      exact dependentsClosure_closed g (g.length + 1) failed hmB nn hng
        ⟨b, ‹b ∈ nn.deps›, IH⟩

theorem execute_outcome (g : List WorkNode) (c : Nat) (dur : String → Nat)
    (fl : String → Option String) :
    (execute g c dur fl).outcome = (match (finalState g c dur fl).firstErr with
      | none => Except.ok ()
      | some e => Except.error e) := rfl

theorem execute_statusOf (g : List WorkNode) (c : Nat) (dur : String → Nat)
    (fl : String → Option String) (i : String) :
    (execute g c dur fl).statusOf i =
      (if (finalState g c dur fl).doneIds.contains i then NodeStatus.completed
       else if (finalState g c dur fl).failIds.contains i then NodeStatus.failed
       else if (skippedOf g (finalState g c dur fl).failIds).contains i then
         NodeStatus.skipped
       else NodeStatus.pendingLeft) := rfl

/-- C3: when an action fails, no new node is ever dispatched after the
recorded failure; every transitive dependent of a failed node is never
dispatched and is marked `skipped`; every node that was dispatched still
runs to completion (a completion or failure for it is recorded); and the
run's outcome is exactly the first recorded error, later failures not
overriding it. -/
theorem C3_failure_containment (arts : List Artifact) (c : Nat)
    (dur : String → Nat) (fl : String → Option String)
    (hnodup : ((nodesOf arts).map (fun n => n.id)).Nodup) :
    (∀ (T1 T2 : List Event) (i m : String),
      (execute (nodesOf arts) c dur fl).events = T1 ++ Event.failEv i m :: T2 →
      dispatchList T2 = []) ∧
    (∀ x f m0, Event.failEv f m0 ∈ (execute (nodesOf arts) c dur fl).events →
      Relation.TransGen (DepStep (nodesOf arts)) x f →
      x ∉ dispatchIds (execute (nodesOf arts) c dur fl).events ∧
      (execute (nodesOf arts) c dur fl).statusOf x = NodeStatus.skipped) ∧
    (∀ n ∈ dispatchList (execute (nodesOf arts) c dur fl).events,
      n.id ∈ completesIn (execute (nodesOf arts) c dur fl).events ∨
      ∃ m, (n.id, m) ∈ failuresIn (execute (nodesOf arts) c dur fl).events) ∧
    (∀ i m, (failuresIn (execute (nodesOf arts) c dur fl).events).head? = some (i, m) →
      (execute (nodesOf arts) c dur fl).outcome = Except.error m) := by
  obtain ⟨hinv, hhalt⟩ := final_inv (nodesOf arts) c dur fl
  refine ⟨?_, ?_, ?_, ?_⟩
  · intro T1 T2 i m hev
    rw [execute_events] at hev
    exact noLate_decomp _ T1 T2 i m hinv.noLate hev
  · intro x f m0 hfev htg
    rw [execute_events] at hfev
    have hfid : f ∈ (finalState (nodesOf arts) c dur fl).failIds := by
      rw [hinv.failEq]
      exact List.mem_map.mpr ⟨(f, m0), (mem_failuresIn _ f m0).mpr hfev, rfl⟩
    obtain hnd := dependents_never_dispatched (nodesOf arts) c fl _ hinv hnodup f hfid x htg
    have hxfail : x ∉ (finalState (nodesOf arts) c dur fl).failIds := by
      intro hxf
      apply hnd.2
      exact hinv.runPerm.mem_iff.mpr (by simp [hxf])
    refine ⟨by rw [execute_events]; exact hnd.2, ?_⟩
    rw [execute_statusOf]
    rw [if_neg (by simpa using hnd.1), if_neg (by simpa using hxfail),
      if_pos ?_]
    have hcl := dependents_in_closure (nodesOf arts)
      (finalState (nodesOf arts) c dur fl).failIds x f hfid htg
    simp only [skippedOf, List.contains_eq_any_beq, List.any_eq_true]
    refine ⟨x, ?_, by simp⟩
    rw [List.mem_filter]
    refine ⟨hcl, ?_⟩
    rw [Bool.not_eq_true', List.any_eq_false]
    intro y hy
    simp only [beq_iff_eq]
    intro hxy
    exact hxfail (by rw [hxy]; exact hy)
  · intro n hn
    rw [execute_events] at hn ⊢
    have hid : n.id ∈ dispatchIds (finalState (nodesOf arts) c dur fl).trace :=
      List.mem_map.mpr ⟨n, hn, rfl⟩
    have hmem := hinv.runPerm.mem_iff.mp hid
    rw [List.mem_append, List.mem_append] at hmem
    rcases hmem with (hmem | hmem) | hmem
    · rw [runIds, hhalt.1] at hmem
      cases hmem
    · left
      rw [← hinv.doneEq]
      exact hmem
    · right
      rw [hinv.failEq] at hmem
      obtain ⟨pr, hpr, hprid⟩ := List.mem_map.mp hmem
      exact ⟨pr.2, by rw [← hprid]; simpa using hpr⟩
  · intro i m hh
    rw [execute_events] at hh
    rw [execute_outcome, hinv.errEq, hh]
    rfl

/-- The failure scenario `A (error) -> B, C` at concurrency 1. -/
def failArts : List Artifact :=
  [createArtifact "A" ArtKind.stack [] [] 0 (some "boom"),
   createArtifact "B" ArtKind.stack ["A"] [] 0 none,
   stackArt "C"]

theorem C3_failure_containment_witness :
    (∀ (T1 T2 : List Event) (i m : String),
      (execute (nodesOf failArts) 1 (testDur failArts) (testFail failArts)).events
        = T1 ++ Event.failEv i m :: T2 → dispatchList T2 = []) ∧
    (∀ x f m0, Event.failEv f m0 ∈
        (execute (nodesOf failArts) 1 (testDur failArts) (testFail failArts)).events →
      Relation.TransGen (DepStep (nodesOf failArts)) x f →
      x ∉ dispatchIds
        (execute (nodesOf failArts) 1 (testDur failArts) (testFail failArts)).events ∧
      (execute (nodesOf failArts) 1 (testDur failArts)
        (testFail failArts)).statusOf x = NodeStatus.skipped) ∧
    (∀ n ∈ dispatchList
        (execute (nodesOf failArts) 1 (testDur failArts) (testFail failArts)).events,
      n.id ∈ completesIn
        (execute (nodesOf failArts) 1 (testDur failArts) (testFail failArts)).events ∨
      ∃ m, (n.id, m) ∈ failuresIn
        (execute (nodesOf failArts) 1 (testDur failArts) (testFail failArts)).events) ∧
    (∀ i m, (failuresIn (execute (nodesOf failArts) 1 (testDur failArts)
        (testFail failArts)).events).head? = some (i, m) →
      (execute (nodesOf failArts) 1 (testDur failArts)
        (testFail failArts)).outcome = Except.error m) :=
  C3_failure_containment failArts 1 (testDur failArts) (testFail failArts) (by decide)

/-! ## Dispatch order: sequence sorting and FIFO -/

theorem artifactNodes_seq_bounds (arts : List Artifact) (i : Nat) (a : Artifact) :
    ∀ n ∈ artifactNodes arts i a, 2 * i ≤ n.seq ∧ n.seq < 2 * i + 2 := by
  intro n hn
  cases hk : a.kind with
  | stack =>
    simp only [artifactNodes, hk, List.mem_singleton] at hn
    subst hn
    constructor <;> simp
  | asset =>
    simp only [artifactNodes, hk, List.mem_cons, List.not_mem_nil, or_false] at hn
    rcases hn with hn | hn <;> subst hn <;> constructor <;> simp

theorem nodesOf_seq_sorted (arts : List Artifact) :
    List.Pairwise (fun a b => a.seq < b.seq) (nodesOf arts) := by
  have hgen : ∀ (l : List Artifact) (k : Nat),
      List.Pairwise (fun a b => a.seq < b.seq)
        (((List.enumFrom k l).map (fun p => artifactNodes arts p.1 p.2)).flatten) ∧
      (∀ n ∈ ((List.enumFrom k l).map (fun p => artifactNodes arts p.1 p.2)).flatten,
        2 * k ≤ n.seq) := by
    intro l
    induction l with
    | nil => intro k; exact ⟨by simp, by simp⟩
    | cons a as ih =>
      intro k
      obtain ⟨ihp, ihb⟩ := ih (k + 1)
      constructor
      · simp only [List.enumFrom, List.map_cons, List.flatten_cons]
        rw [List.pairwise_append]
        refine ⟨?_, ihp, ?_⟩
        · cases hk : a.kind <;> simp [artifactNodes, hk]
        · intro x hx y hy
          have hxb := (artifactNodes_seq_bounds arts k a x hx).2
          have hyb := ihb y hy
          omega
      · intro n hn
        simp only [List.enumFrom, List.map_cons, List.flatten_cons] at hn
        rcases List.mem_append.mp hn with hn | hn
        · exact (artifactNodes_seq_bounds arts k a n hn).1
        · have := ihb n hn
          omega
  exact (hgen arts 0).1

theorem dispatchPhase_shape (c : Nat) (dur : String → Nat) :
    ∀ (q : List WorkNode) (s : ExecState), s.queue = q →
      ∃ k, (dispatchPhase c dur q s).queue = q.drop k ∧
        (dispatchPhase c dur q s).trace = s.trace ++ (q.take k).map Event.dispatchEv := by
  intro q
  induction q with
  | nil =>
    intro s hq
    exact ⟨0, by simp [dispatchPhase, hq], by simp [dispatchPhase]⟩
  | cons n rest ih =>
    intro s hq
    by_cases hg : s.firstErr = none ∧ s.running.length < c
    · rw [dispatchPhase, if_pos hg]
      obtain ⟨k, hk1, hk2⟩ := ih { s with
        queue := rest,
        running := s.running ++ [(n, s.now + dur n.id)],
        trace := s.trace ++ [Event.dispatchEv n] } rfl
      refine ⟨k + 1, by simpa using hk1, ?_⟩
      rw [hk2]
      simp
    · rw [dispatchPhase, if_neg hg]
      exact ⟨0, by rw [List.drop_zero]; exact hq, by simp⟩

theorem runLoop_trace_ext (c : Nat) (dur : String → Nat) (fl : String → Option String) :
    ∀ (fuel : Nat) (s : ExecState),
      ∃ ext, (runLoop c dur fl fuel s).trace = s.trace ++ ext := by
  intro fuel
  induction fuel with
  | zero => intro s; exact ⟨[], by simp [runLoop]⟩
  | succ fuel ih =>
    intro s
    obtain ⟨k, _, ht1⟩ := dispatchPhase_shape c dur s.queue s rfl
    rw [runLoop]
    simp only [dispatchAll]
    cases hp : pickEarliest (dispatchPhase c dur s.queue s).running with
    | none => exact ⟨(s.queue.take k).map Event.dispatchEv, ht1⟩
    | some pr =>
      obtain ⟨⟨n, t⟩, rest⟩ := pr
      obtain ⟨ext2, hext2⟩ := ih
        (completeNode fl n { dispatchPhase c dur s.queue s with running := rest, now := t })
      obtain ⟨e0, he0⟩ := completeNode_trace fl n
        { dispatchPhase c dur s.queue s with running := rest, now := t }
      refine ⟨(s.queue.take k).map Event.dispatchEv ++ [e0] ++ ext2, ?_⟩
      rw [hext2, he0]
      simp only []
      rw [ht1]
      simp

theorem completeNode_queue_ext (fl : String → Option String) (n : WorkNode)
    (s : ExecState) : ∃ ext, (completeNode fl n s).queue = s.queue ++ ext := by
  cases hfl : fl n.id with
  | none =>
    exact ⟨s.pending.filter (readyNow (s.doneIds ++ [n.id])),
      by simp [completeNode, hfl]⟩
  | some e => exact ⟨[], by simp [completeNode, hfl]⟩

theorem queue_not_dispatched (g : List WorkNode) (c : Nat)
    (fl : String → Option String) (s : ExecState) (hinv : SchedInv g c fl s)
    (hnodup : (g.map (fun x => x.id)).Nodup) (n : WorkNode) (hn : n ∈ s.queue) :
    Event.dispatchEv n ∉ s.trace := by
  intro hev
  have hperm := hinv.perm.map (fun x => x.id)
  have hnd : ((s.pending ++ s.queue ++ dispatchList s.trace).map (fun x => x.id)).Nodup :=
    hperm.nodup_iff.mpr hnodup
  rw [List.map_append, List.map_append] at hnd
  have hq : n.id ∈ s.queue.map (fun x => x.id) := List.mem_map.mpr ⟨n, hn, rfl⟩
  have hdisp : n.id ∈ (dispatchList s.trace).map (fun x => x.id) :=
    List.mem_map.mpr ⟨n, (mem_dispatchList _ n).mpr hev, rfl⟩
  have hdisj := List.disjoint_of_nodup_append hnd
  exact hdisj (List.mem_append.mpr (Or.inr hq)) hdisp

theorem fifo_pair (g : List WorkNode) (c : Nat) (dur : String → Nat)
    (fl : String → Option String) (hnodup : (g.map (fun x => x.id)).Nodup) :
    ∀ (fuel : Nat) (s : ExecState), SchedInv g c fl s →
      ∀ m n : WorkNode, List.Sublist [m, n] s.queue →
      Event.dispatchEv n ∈ (runLoop c dur fl fuel s).trace →
      List.Sublist [Event.dispatchEv m, Event.dispatchEv n]
        (runLoop c dur fl fuel s).trace := by
  intro fuel
  induction fuel with
  | zero =>
    intro s hinv m n hsub hev
    have hn : n ∈ s.queue := hsub.subset (by simp)
    rw [runLoop] at hev
    exact absurd hev (queue_not_dispatched g c fl s hinv hnodup n hn)
  | succ fuel ih =>
    intro s hinv m n hsub hev
    have hinv1 : SchedInv g c fl (dispatchPhase c dur s.queue s) :=
      dispatchPhase_inv g c dur fl s.queue s rfl hinv
    obtain ⟨k, hq1, ht1⟩ := dispatchPhase_shape c dur s.queue s rfl
    rw [runLoop] at hev ⊢
    simp only [dispatchAll] at hev ⊢
    have hsub2 : List.Sublist [m, n] (s.queue.take k ++ s.queue.drop k) := by
      rwa [List.take_append_drop]
    obtain ⟨l1, l2, hl, h1, h2⟩ := List.sublist_append_iff.mp hsub2
    cases hp : pickEarliest (dispatchPhase c dur s.queue s).running with
    | none =>
      rw [hp] at hev
      -- the result is the dispatched state itself
      rcases l1 with _ | ⟨a, l1⟩
      · -- both still queued: n undispatched, contradiction
        rw [List.nil_append] at hl
        subst hl
        have hn : n ∈ (dispatchPhase c dur s.queue s).queue := by
          rw [hq1]
          exact h2.subset (by simp)
        exact absurd hev (queue_not_dispatched g c fl _ hinv1 hnodup n hn)
      · rcases l1 with _ | ⟨b, l1⟩
        · -- l1 = [a]: a = m, l2 = [n]: n still queued, contradiction
          simp only [List.cons_append, List.nil_append, List.cons.injEq] at hl
          obtain ⟨rfl, hl⟩ := hl
          subst hl
          have hn : n ∈ (dispatchPhase c dur s.queue s).queue := by
            rw [hq1]
            exact h2.subset (by simp)
          exact absurd hev (queue_not_dispatched g c fl _ hinv1 hnodup n hn)
        · -- l1 = [m, n] (l2 = []): both dispatched during the phase, in order
          have hl1 : m = a ∧ n = b ∧ l1 = [] := by
            cases l2 with
            | nil =>
              simp only [List.append_nil, List.cons.injEq] at hl
              exact ⟨hl.1, hl.2.1, hl.2.2.symm⟩
            | cons x xs =>
              exfalso
              have hlen := congrArg List.length hl
              simp at hlen
          obtain ⟨rfl, rfl, rfl⟩ := hl1
          have hsubt : List.Sublist [Event.dispatchEv m, Event.dispatchEv n]
              ((s.queue.take k).map Event.dispatchEv) := by
            have := List.Sublist.map Event.dispatchEv h1
            simpa using this
          rw [ht1]
          exact hsubt.trans (List.sublist_append_right _ _)
    | some pr =>
      obtain ⟨⟨nn, t⟩, rest⟩ := pr
      rw [hp] at hev
      have hinv2 : SchedInv g c fl (completeNode fl nn
          { dispatchPhase c dur s.queue s with running := rest, now := t }) :=
        completeNode_inv g c fl _ nn t rest hinv1 hp
      obtain ⟨qext, hqext⟩ := completeNode_queue_ext fl nn
        { dispatchPhase c dur s.queue s with running := rest, now := t }
      obtain ⟨e0, he0⟩ := completeNode_trace fl nn
        { dispatchPhase c dur s.queue s with running := rest, now := t }
      obtain ⟨ext2, hext2⟩ := runLoop_trace_ext c dur fl fuel
        (completeNode fl nn { dispatchPhase c dur s.queue s with running := rest, now := t })
      rcases l1 with _ | ⟨a, l1⟩
      · -- both nodes survive the phase in the queue: recurse
        rw [List.nil_append] at hl
        subst hl
        apply ih _ hinv2 m n ?_ hev
        rw [hqext]
        simp only []
        refine List.Sublist.trans ?_ (List.sublist_append_left _ _)
        rw [hq1]
        exact h2
      · rcases l1 with _ | ⟨b, l1⟩
        · -- m dispatched during the phase, n still queued
          simp only [List.cons_append, List.nil_append, List.cons.injEq] at hl
          obtain ⟨rfl, hl⟩ := hl
          subst hl
          have hm : Event.dispatchEv m ∈ (s.queue.take k).map Event.dispatchEv :=
            List.mem_map.mpr ⟨m, h1.subset (by simp), rfl⟩
          have hmev : Event.dispatchEv m ∈ (completeNode fl nn
              { dispatchPhase c dur s.queue s with running := rest, now := t }).trace := by
            rw [he0]
            simp only []
            rw [ht1]
            exact List.mem_append.mpr (Or.inl (List.mem_append.mpr (Or.inr hm)))
          have hnq : n ∈ (completeNode fl nn
              { dispatchPhase c dur s.queue s with running := rest, now := t }).queue := by
            rw [hqext]
            simp only []
            rw [hq1]
            exact List.mem_append.mpr (Or.inl (h2.subset (by simp)))
          have hnev2 : Event.dispatchEv n ∈ ext2 := by
            rw [hext2] at hev
            rcases List.mem_append.mp hev with hev | hev
            · exact absurd hev (queue_not_dispatched g c fl _ hinv2 hnodup n hnq)
            · exact hev
          rw [hext2]
          have s1 : List.Sublist [Event.dispatchEv m] (completeNode fl nn
              { dispatchPhase c dur s.queue s with running := rest, now := t }).trace :=
            List.singleton_sublist.mpr hmev
          have s2 : List.Sublist [Event.dispatchEv n] ext2 :=
            List.singleton_sublist.mpr hnev2
          simpa using List.Sublist.append s1 s2
        · -- both dispatched during the phase
          have hl1 : m = a ∧ n = b ∧ l1 = [] := by
            cases l2 with
            | nil =>
              simp only [List.append_nil, List.cons.injEq] at hl
              exact ⟨hl.1, hl.2.1, hl.2.2.symm⟩
            | cons x xs =>
              exfalso
              have hlen := congrArg List.length hl
              simp at hlen
          obtain ⟨rfl, rfl, rfl⟩ := hl1
          have hsubt : List.Sublist [Event.dispatchEv m, Event.dispatchEv n]
              ((s.queue.take k).map Event.dispatchEv) := by
            have := List.Sublist.map Event.dispatchEv h1
            simpa using this
          have hin1 : List.Sublist [Event.dispatchEv m, Event.dispatchEv n]
              (dispatchPhase c dur s.queue s).trace := by
            rw [ht1]
            exact hsubt.trans (List.sublist_append_right _ _)
          rw [hext2, he0]
          simp only []
          refine List.Sublist.trans hin1 ?_
          refine List.Sublist.trans (List.sublist_append_left _ [e0]) ?_
          exact List.sublist_append_left _ _


/-- Modelled from the spec: the instant at which a node becomes eligible —
the length of the shortest prefix of the chronological completion list
that contains the node's whole dependency set (0 for nodes ready at
initialization).  Two nodes are "readied at the same instant" exactly
when their ranks agree. -/
def readyRank : List String → List String → Nat
  | [], _ => 0
  | c :: rest, deps =>
    if deps.isEmpty then 0
    else 1 + readyRank rest (deps.filter (fun d => !(d == c)))

theorem readyRank_nil_deps (done : List String) : readyRank done [] = 0 := by
  cases done <;> simp [readyRank]

theorem readyRank_le (done : List String) :
    ∀ deps : List String, readyRank done deps ≤ done.length := by
  induction done with
  | nil => intro deps; simp [readyRank]
  | cons c rest ih =>
    intro deps
    by_cases he : deps.isEmpty
    · simp [readyRank, he]
    · simp only [readyRank, if_neg he, List.length_cons]
      have := ih (deps.filter (fun d => !(d == c)))
      omega

theorem readyRank_stable (done ext : List String) :
    ∀ deps : List String, (∀ d ∈ deps, d ∈ done) →
      readyRank (done ++ ext) deps = readyRank done deps := by
  induction done with
  | nil =>
    intro deps h
    have hd : deps = [] := by
      cases deps with
      | nil => rfl
      | cons a as => exact absurd (h a (List.mem_cons_self a as)) (List.not_mem_nil a)
    subst hd
    rw [readyRank_nil_deps, readyRank_nil_deps]
  | cons c rest ih =>
    intro deps h
    by_cases he : deps.isEmpty
    · have hd : deps = [] := by
        cases deps with
        | nil => rfl
        | cons a as => simp at he
      subst hd
      rw [readyRank_nil_deps, readyRank_nil_deps]
    · simp only [List.cons_append, readyRank, if_neg he, List.append_eq]
      have hsub : ∀ d ∈ deps.filter (fun d => !(d == c)), d ∈ rest := by
        intro d hd
        obtain ⟨hd1, hd2⟩ := List.mem_filter.mp hd
        have hdc : d ≠ c := by simpa using hd2
        rcases List.mem_cons.mp (h d hd1) with h1 | h1
        · exact absurd h1 hdc
        · exact h1
      rw [ih _ hsub]

theorem readyRank_gt (d : String) :
    ∀ (done ext deps : List String), d ∈ deps → d ∉ done → d ∈ ext →
      done.length < readyRank (done ++ ext) deps := by
  intro done
  induction done with
  | nil =>
    intro ext deps hd _ hext
    have hne : deps.isEmpty = false := by
      cases deps with
      | nil => exact absurd hd (List.not_mem_nil d)
      | cons a as => rfl
    cases ext with
    | nil => exact absurd hext (List.not_mem_nil d)
    | cons c rest =>
      simp [readyRank, hne]
  | cons c rest ih =>
    intro ext deps hd hnd hext
    have hne : deps.isEmpty = false := by
      cases deps with
      | nil => exact absurd hd (List.not_mem_nil d)
      | cons a as => rfl
    have hdc : d ≠ c := fun h => hnd (by rw [h]; exact List.mem_cons_self c rest)
    have hnd2 : d ∉ rest := fun h => hnd (List.mem_cons_of_mem c h)
    have hd2 : d ∈ deps.filter (fun x => !(x == c)) :=
      List.mem_filter.mpr ⟨hd, by simpa using hdc⟩
    have hih := ih ext (deps.filter (fun x => !(x == c))) hd2 hnd2 hext
    have heq : readyRank (c :: (rest ++ ext)) deps
        = 1 + readyRank (rest ++ ext) (deps.filter (fun x => !(x == c))) := by
      simp [readyRank, hne]
    simp only [List.cons_append, List.length_cons]
    rw [heq]
    omega

/-- In a list strictly sorted by sequence, any two members in sequence
order form a sublist in that order. -/
theorem pairwise_seq_sublist :
    ∀ l : List WorkNode, List.Pairwise (fun a b => a.seq < b.seq) l →
      ∀ m n : WorkNode, m ∈ l → n ∈ l → m.seq < n.seq →
      List.Sublist [m, n] l := by
  intro l
  induction l with
  | nil => intro _ m n hm; exact absurd hm (List.not_mem_nil m)
  | cons a t ih =>
    intro hp m n hm hn hmn
    rw [List.pairwise_cons] at hp
    rcases List.mem_cons.mp hm with rfl | hm2
    · rcases List.mem_cons.mp hn with heq | hn2
      · subst heq
        exact absurd hmn (lt_irrefl _)
      · exact (List.singleton_sublist.mpr hn2).cons₂ m
    · rcases List.mem_cons.mp hn with heq | hn2
      · subst heq
        exact absurd hmn (by have := hp.1 m hm2; omega)
      · exact (ih hp.2 m n hm2 hn2 hmn).cons a

/-- A node still pending was never dispatched (node ids unique). -/
theorem pending_not_dispatched (g : List WorkNode) (c : Nat)
    (fl : String → Option String) (s : ExecState) (hinv : SchedInv g c fl s)
    (hnodup : (g.map (fun x => x.id)).Nodup) (n : WorkNode) (hn : n ∈ s.pending) :
    Event.dispatchEv n ∉ s.trace := by
  intro hev
  have hperm := hinv.perm.map (fun x => x.id)
  have hnd : ((s.pending ++ s.queue ++ dispatchList s.trace).map (fun x => x.id)).Nodup :=
    hperm.nodup_iff.mpr hnodup
  rw [List.map_append, List.map_append] at hnd
  have hq : n.id ∈ s.pending.map (fun x => x.id) := List.mem_map.mpr ⟨n, hn, rfl⟩
  have hdisp : n.id ∈ (dispatchList s.trace).map (fun x => x.id) :=
    List.mem_map.mpr ⟨n, (mem_dispatchList _ n).mpr hev, rfl⟩
  have hdisj := List.disjoint_of_nodup_append hnd
  exact hdisj (List.mem_append.mpr (Or.inl hq)) hdisp

/-- The scheduler invariant is preserved by the whole loop, whatever the
fuel. -/
theorem runLoop_inv (g : List WorkNode) (c : Nat) (dur : String → Nat)
    (fl : String → Option String) :
    ∀ (fuel : Nat) (s : ExecState), SchedInv g c fl s →
      SchedInv g c fl (runLoop c dur fl fuel s) := by
  intro fuel
  induction fuel with
  | zero =>
    intro s hinv
    rw [runLoop]
    exact hinv
  | succ fuel ih =>
    intro s hinv
    have hinv1 : SchedInv g c fl (dispatchPhase c dur s.queue s) :=
      dispatchPhase_inv g c dur fl s.queue s rfl hinv
    rw [runLoop]
    simp only [dispatchAll]
    cases hp : pickEarliest (dispatchPhase c dur s.queue s).running with
    | none => exact hinv1
    | some pr =>
      obtain ⟨⟨nn, t⟩, rest⟩ := pr
      exact ih _ (completeNode_inv g c fl _ nn t rest hinv1 hp)

/-- Every dependency of a dispatched node appears among the trace's
completions. -/
theorem dispatched_deps_completed (g : List WorkNode) (c : Nat)
    (fl : String → Option String) (s : ExecState) (hinv : SchedInv g c fl s)
    (n : WorkNode) (hev : Event.dispatchEv n ∈ s.trace) :
    ∀ d ∈ n.deps, d ∈ completesIn s.trace := by
  intro d hd
  obtain ⟨T1, T2, hsplit⟩ := List.append_of_mem hev
  have hdeps := hinv.depsOk
  rw [hsplit] at hdeps ⊢
  have h1 := depsOk_decomp [] T1 T2 n hdeps d hd
  rw [List.nil_append] at h1
  rw [completesIn_append]
  exact List.mem_append.mpr (Or.inl h1)

/-- Two pending nodes that end up readied at the same instant (equal
`readyRank` over the run's completions) are dispatched in sequence
order: they join the ready queue in the same cohort, in sequence order,
and dispatch is FIFO. -/
theorem cohort_fifo (g : List WorkNode) (c : Nat) (dur : String → Nat)
    (fl : String → Option String) (hnodup : (g.map (fun x => x.id)).Nodup) :
    ∀ (fuel : Nat) (s : ExecState), SchedInv g c fl s →
      List.Pairwise (fun a b => a.seq < b.seq) s.pending →
      ∀ m n : WorkNode, m ∈ s.pending → n ∈ s.pending → m.seq < n.seq →
      Event.dispatchEv m ∈ (runLoop c dur fl fuel s).trace →
      Event.dispatchEv n ∈ (runLoop c dur fl fuel s).trace →
      readyRank (completesIn (runLoop c dur fl fuel s).trace) m.deps
        = readyRank (completesIn (runLoop c dur fl fuel s).trace) n.deps →
      List.Sublist [Event.dispatchEv m, Event.dispatchEv n]
        (runLoop c dur fl fuel s).trace := by
  intro fuel
  induction fuel with
  | zero =>
    intro s hinv _ m n hm _ _ hevm _ _
    rw [runLoop] at hevm
    exact absurd hevm (pending_not_dispatched g c fl s hinv hnodup m hm)
  | succ fuel ih =>
    intro s hinv hpair m n hm hn hseq hevm hevn hrank
    have hinv1 : SchedInv g c fl (dispatchPhase c dur s.queue s) :=
      dispatchPhase_inv g c dur fl s.queue s rfl hinv
    obtain ⟨hfp, hfd, _, _, _, _, _, _⟩ := dispatchPhase_facts c dur s.queue s rfl
    rw [runLoop] at hevm hevn hrank ⊢
    simp only [dispatchAll] at hevm hevn hrank ⊢
    cases hp : pickEarliest (dispatchPhase c dur s.queue s).running with
    | none =>
      rw [hp] at hevm
      exact absurd hevm (pending_not_dispatched g c fl _ hinv1 hnodup m
        (by rw [hfp]; exact hm))
    | some pr =>
      obtain ⟨⟨nn, t⟩, rest⟩ := pr
      rw [hp] at hevm hevn hrank
      have hinv2 : SchedInv g c fl (completeNode fl nn
          { dispatchPhase c dur s.queue s with running := rest, now := t }) :=
        completeNode_inv g c fl _ nn t rest hinv1 hp
      cases hfl : fl nn.id with
      | some e =>
        have hpend : (completeNode fl nn
            { dispatchPhase c dur s.queue s with running := rest, now := t }).pending
            = s.pending := by
          simp [completeNode, hfl, hfp]
        apply ih _ hinv2 (by rw [hpend]; exact hpair) m n
          (by rw [hpend]; exact hm) (by rw [hpend]; exact hn) hseq hevm hevn hrank
      | none =>
        have hpend2 : (completeNode fl nn
            { dispatchPhase c dur s.queue s with running := rest, now := t }).pending
            = s.pending.filter (fun p => !(readyNow (s.doneIds ++ [nn.id]) p)) := by
          simp [completeNode, hfl, hfp, hfd]
        have hqueue2 : (completeNode fl nn
            { dispatchPhase c dur s.queue s with running := rest, now := t }).queue
            = (dispatchPhase c dur s.queue s).queue
              ++ s.pending.filter (readyNow (s.doneIds ++ [nn.id])) := by
          simp [completeNode, hfl, hfp, hfd]
        have htr2 : (completeNode fl nn
            { dispatchPhase c dur s.queue s with running := rest, now := t }).trace
            = (dispatchPhase c dur s.queue s).trace ++ [Event.completeEv nn.id] := by
          simp [completeNode, hfl]
        obtain ⟨ext2, hext2⟩ := runLoop_trace_ext c dur fl fuel (completeNode fl nn
          { dispatchPhase c dur s.queue s with running := rest, now := t })
        have hde : completesIn (dispatchPhase c dur s.queue s).trace = s.doneIds := by
          rw [← hinv1.doneEq]
          exact hfd
        have hone : completesIn [Event.completeEv nn.id] = [nn.id] := by
          simp [completesIn]
        have hctr : completesIn (runLoop c dur fl fuel (completeNode fl nn
            { dispatchPhase c dur s.queue s with running := rest, now := t })).trace
            = (s.doneIds ++ [nn.id]) ++ completesIn ext2 := by
          rw [hext2, htr2, completesIn_append, completesIn_append, hde, hone]
        have hinvF : SchedInv g c fl (runLoop c dur fl fuel (completeNode fl nn
            { dispatchPhase c dur s.queue s with running := rest, now := t })) :=
          runLoop_inv g c dur fl fuel _ hinv2
        by_cases hmC : readyNow (s.doneIds ++ [nn.id]) m = true
        · by_cases hnC : readyNow (s.doneIds ++ [nn.id]) n = true
          · -- both join the ready queue now, in sequence order: FIFO from here
            have hmem : List.Sublist [m, n]
                (s.pending.filter (readyNow (s.doneIds ++ [nn.id]))) :=
              pairwise_seq_sublist _ (List.Pairwise.filter _ hpair) m n
                (List.mem_filter.mpr ⟨hm, hmC⟩) (List.mem_filter.mpr ⟨hn, hnC⟩) hseq
            have hsubq : List.Sublist [m, n] (completeNode fl nn
                { dispatchPhase c dur s.queue s with running := rest, now := t }).queue := by
              rw [hqueue2]
              exact hmem.trans (List.sublist_append_right _ _)
            exact fifo_pair g c dur fl hnodup fuel _ hinv2 m n hsubq hevn
          · -- m readied at this instant, n later: unequal ranks, contradiction
            exfalso
            have hcovm : ∀ d ∈ m.deps, d ∈ s.doneIds ++ [nn.id] := by
              intro d hd
              have h2 := hmC
              simp only [readyNow, List.all_eq_true] at h2
              have h3 := h2 d hd
              simpa using h3
            have hrm2 : readyRank ((s.doneIds ++ [nn.id]) ++ completesIn ext2) m.deps
                ≤ s.doneIds.length + 1 := by
              rw [readyRank_stable _ _ _ hcovm]
              have := readyRank_le (s.doneIds ++ [nn.id]) m.deps
              simpa using this
            have hnr2 := hnC
            simp only [readyNow, List.all_eq_true] at hnr2
            push_neg at hnr2
            obtain ⟨d, hd, hdp⟩ := hnr2
            have hdnot : d ∉ s.doneIds ++ [nn.id] := by simpa using hdp
            have hdc := dispatched_deps_completed g c fl _ hinvF n hevn d hd
            rw [hctr] at hdc
            have hdext : d ∈ completesIn ext2 := by
              rcases List.mem_append.mp hdc with h1 | h1
              · exact absurd h1 hdnot
              · exact h1
            have hrn2 : s.doneIds.length + 1
                < readyRank ((s.doneIds ++ [nn.id]) ++ completesIn ext2) n.deps := by
              have := readyRank_gt d (s.doneIds ++ [nn.id]) (completesIn ext2)
                n.deps hd hdnot hdext
              simpa using this
            have hne2 : ¬ (readyRank (completesIn (runLoop c dur fl fuel (completeNode fl nn
                { dispatchPhase c dur s.queue s with running := rest, now := t })).trace) m.deps
                = readyRank (completesIn (runLoop c dur fl fuel (completeNode fl nn
                { dispatchPhase c dur s.queue s with running := rest, now := t })).trace)
                  n.deps) := by
              rw [hctr]
              omega
            exact hne2 hrank
          -- (the by_cases on n sits inside the m case)
        · by_cases hnC : readyNow (s.doneIds ++ [nn.id]) n = true
          · -- n readied at this instant, m later: unequal ranks, contradiction
            exfalso
            have hcovn : ∀ d ∈ n.deps, d ∈ s.doneIds ++ [nn.id] := by
              intro d hd
              have h2 := hnC
              simp only [readyNow, List.all_eq_true] at h2
              have h3 := h2 d hd
              simpa using h3
            have hrn2 : readyRank ((s.doneIds ++ [nn.id]) ++ completesIn ext2) n.deps
                ≤ s.doneIds.length + 1 := by
              rw [readyRank_stable _ _ _ hcovn]
              have := readyRank_le (s.doneIds ++ [nn.id]) n.deps
              simpa using this
            have hmr2 := hmC
            simp only [readyNow, List.all_eq_true] at hmr2
            push_neg at hmr2
            obtain ⟨d, hd, hdp⟩ := hmr2
            have hdnot : d ∉ s.doneIds ++ [nn.id] := by simpa using hdp
            have hdc := dispatched_deps_completed g c fl _ hinvF m hevm d hd
            rw [hctr] at hdc
            have hdext : d ∈ completesIn ext2 := by
              rcases List.mem_append.mp hdc with h1 | h1
              · exact absurd h1 hdnot
              · exact h1
            have hrm2 : s.doneIds.length + 1
                < readyRank ((s.doneIds ++ [nn.id]) ++ completesIn ext2) m.deps := by
              have := readyRank_gt d (s.doneIds ++ [nn.id]) (completesIn ext2)
                m.deps hd hdnot hdext
              simpa using this
            have hne2 : ¬ (readyRank (completesIn (runLoop c dur fl fuel (completeNode fl nn
                { dispatchPhase c dur s.queue s with running := rest, now := t })).trace) m.deps
                = readyRank (completesIn (runLoop c dur fl fuel (completeNode fl nn
                { dispatchPhase c dur s.queue s with running := rest, now := t })).trace)
                  n.deps) := by
              rw [hctr]
              omega
            exact hne2 hrank
          · -- neither is readied yet: recurse with both still pending
            apply ih _ hinv2 ?_ m n ?_ ?_ hseq hevm hevn hrank
            · rw [hpend2]
              exact List.Pairwise.filter _ hpair
            · rw [hpend2]
              exact List.mem_filter.mpr ⟨hm, by simpa using hmC⟩
            · rw [hpend2]
              exact List.mem_filter.mpr ⟨hn, by simpa using hnC⟩

/-- The scenario `A (slow) -> B, C -> D` of the test suite. -/
def slowArts : List Artifact :=
  [createArtifact "A" ArtKind.stack [] [] 200 none,
   createArtifact "B" ArtKind.stack ["A"] [] 0 none,
   stackArt "C",
   createArtifact "D" ArtKind.stack ["C"] [] 0 none]

/-- C4: a node is dispatched only after all of its in-graph dependencies
completed; the initially ready nodes are queued in input-derived sequence
order; dispatch is FIFO (a node ahead in the ready queue is dispatched
before one behind it); any two nodes readied at the same instant — equal
`readyRank`, i.e. the same shortest completion prefix satisfies their
dependency sets, covering both the initial cohort and cohorts readied
mid-run by a completion — are dispatched in sequence order; and dispatch
is eager: with concurrency 2 and A slow, the independent chain C -> D
finishes before the slow chain, the action order being [C, D, A, B]. -/
theorem C4_dispatch_policy (arts : List Artifact) (c : Nat) (dur : String → Nat)
    (fl : String → Option String)
    (hnodup : ((nodesOf arts).map (fun n => n.id)).Nodup) :
    (∀ (T1 T2 : List Event) (n : WorkNode),
      (execute (nodesOf arts) c dur fl).events = T1 ++ Event.dispatchEv n :: T2 →
      ∀ d ∈ n.deps, d ∈ completesIn T1) ∧
    List.Pairwise (fun a b => a.seq < b.seq) (initState (nodesOf arts)).queue ∧
    (∀ m n : WorkNode, List.Sublist [m, n] (initState (nodesOf arts)).queue →
      Event.dispatchEv n ∈ (execute (nodesOf arts) c dur fl).events →
      List.Sublist [Event.dispatchEv m, Event.dispatchEv n]
        (execute (nodesOf arts) c dur fl).events) ∧
    (∀ m n : WorkNode,
      Event.dispatchEv m ∈ (execute (nodesOf arts) c dur fl).events →
      Event.dispatchEv n ∈ (execute (nodesOf arts) c dur fl).events →
      readyRank (completesIn (execute (nodesOf arts) c dur fl).events) m.deps
        = readyRank (completesIn (execute (nodesOf arts) c dur fl).events) n.deps →
      m.seq < n.seq →
      List.Sublist [Event.dispatchEv m, Event.dispatchEv n]
        (execute (nodesOf arts) c dur fl).events) ∧
    scenarioActions slowArts 2 = some ["C", "D", "A", "B"] ∧
    scenarioOutcome slowArts 2 = some (Except.ok ()) := by
  obtain ⟨hinv, _⟩ := final_inv (nodesOf arts) c dur fl
  refine ⟨?_, ?_, ?_, ?_, by decide, by decide⟩
  · intro T1 T2 n hev d hd
    rw [execute_events] at hev
    have hdeps := hinv.depsOk
    rw [hev] at hdeps
    have h1 := depsOk_decomp [] T1 T2 n hdeps d hd
    rwa [List.nil_append] at h1
  · simp only [initState]
    exact List.Pairwise.filter _ (nodesOf_seq_sorted arts)
  · intro m n hsub hev
    rw [execute_events] at hev ⊢
    exact fifo_pair (nodesOf arts) c dur fl hnodup ((nodesOf arts).length + 1)
      (initState (nodesOf arts)) (initState_inv (nodesOf arts) c fl) m n hsub hev
  · intro m n hevm hevn hrank hseq
    rw [execute_events] at hevm hevn hrank ⊢
    have hmg : m ∈ nodesOf arts :=
      dispatched_mem_graph (nodesOf arts) c fl _ hinv m hevm
    have hng : n ∈ nodesOf arts :=
      dispatched_mem_graph (nodesOf arts) c fl _ hinv n hevn
    by_cases hmr : readyNow [] m = true
    · by_cases hnr : readyNow [] n = true
      · -- both in the initial ready cohort
        have hq : List.Sublist [m, n] ((nodesOf arts).filter (readyNow [])) :=
          pairwise_seq_sublist _ (List.Pairwise.filter _ (nodesOf_seq_sorted arts)) m n
            (List.mem_filter.mpr ⟨hmg, hmr⟩) (List.mem_filter.mpr ⟨hng, hnr⟩) hseq
        exact fifo_pair (nodesOf arts) c dur fl hnodup ((nodesOf arts).length + 1)
          (initState (nodesOf arts)) (initState_inv (nodesOf arts) c fl) m n hq hevn
      · -- m initially ready, n readied later: their ranks cannot agree
        exfalso
        have hm0 : m.deps = [] := by
          cases hdm : m.deps with
          | nil => rfl
          | cons d ds =>
            exfalso
            simp [readyNow, hdm] at hmr
        have hnd : ∃ d, d ∈ n.deps := by
          cases hdn : n.deps with
          | nil =>
            exfalso
            simp [readyNow, hdn] at hnr
          | cons d ds => exact ⟨d, List.mem_cons_self d ds⟩
        obtain ⟨d, hd⟩ := hnd
        have hdc : d ∈ completesIn (finalState (nodesOf arts) c dur fl).trace :=
          dispatched_deps_completed (nodesOf arts) c fl _ hinv n hevn d hd
        have hgt : 0 < readyRank
            (completesIn (finalState (nodesOf arts) c dur fl).trace) n.deps := by
          have := readyRank_gt d [] (completesIn (finalState (nodesOf arts) c dur fl).trace)
            n.deps hd (List.not_mem_nil d) hdc
          simpa using this
        rw [hm0, readyRank_nil_deps] at hrank
        omega
    · by_cases hnr : readyNow [] n = true
      · exfalso
        have hn0 : n.deps = [] := by
          cases hdn : n.deps with
          | nil => rfl
          | cons d ds =>
            exfalso
            simp [readyNow, hdn] at hnr
        have hmd : ∃ d, d ∈ m.deps := by
          cases hdm : m.deps with
          | nil =>
            exfalso
            simp [readyNow, hdm] at hmr
          | cons d ds => exact ⟨d, List.mem_cons_self d ds⟩
        obtain ⟨d, hd⟩ := hmd
        have hdc : d ∈ completesIn (finalState (nodesOf arts) c dur fl).trace :=
          dispatched_deps_completed (nodesOf arts) c fl _ hinv m hevm d hd
        have hgt : 0 < readyRank
            (completesIn (finalState (nodesOf arts) c dur fl).trace) m.deps := by
          have := readyRank_gt d [] (completesIn (finalState (nodesOf arts) c dur fl).trace)
            m.deps hd (List.not_mem_nil d) hdc
          simpa using this
        rw [hn0, readyRank_nil_deps] at hrank
        omega
      · -- both start pending: same-instant cohorts handled by cohort_fifo
        exact cohort_fifo (nodesOf arts) c dur fl hnodup ((nodesOf arts).length + 1)
          (initState (nodesOf arts)) (initState_inv (nodesOf arts) c fl)
          (List.Pairwise.filter _ (nodesOf_seq_sorted arts)) m n
          (List.mem_filter.mpr ⟨hmg, by simpa using hmr⟩)
          (List.mem_filter.mpr ⟨hng, by simpa using hnr⟩) hseq hevm hevn hrank

/-- Witness for C4: the hypotheses hold at the slow-A scenario. -/
theorem C4_dispatch_policy_witness :
    ((nodesOf slowArts).map (fun n => n.id)).Nodup ∧
    scenarioActions slowArts 2 = some ["C", "D", "A", "B"] :=
  ⟨by decide, (C4_dispatch_policy slowArts 2 (testDur slowArts) (testFail slowArts) (by decide)).2.2.2.2.1⟩

/-- Artifacts refuting the literal C7 claim: A fails on its own, B is an
independent stack with no relation to A. -/
def c7Arts : List Artifact :=
  [createArtifact "A" ArtKind.stack [] [] 0 (some "boom"), stackArt "B"]

/-- C7 (counterexample to the literal claim): in the run of
[A (fails, error "boom"), B] at concurrency 1, node B is in the graph and
is not skipped (it does not depend on A, so its final status is
pendingLeft), yet its action is never invoked: the failure of A stops all
further dispatch, so a non-skipped node can get zero invocations. -/
theorem C7_invocation_counterexample :
    "B" ∈ (nodesOf c7Arts).map (fun n => n.id) ∧
    (execute (nodesOf c7Arts) 1 (testDur c7Arts) (testFail c7Arts)).statusOf "B" =
      NodeStatus.pendingLeft ∧
    "B" ∉ dispatchIds
      (execute (nodesOf c7Arts) 1 (testDur c7Arts) (testFail c7Arts)).events := by
  decide

/-- C7 (amended): in every execution each node's action is invoked at most
once (the dispatched ids are duplicate-free), every invocation is the
action of a graph node of the matching kind, and every node that ends
completed or failed was invoked exactly once.  (The literal claim's
"every non-skipped node is invoked" part fails: see the counterexample.) -/
theorem C7_at_most_once (arts : List Artifact) (c : Nat) (dur : String → Nat)
    (fl : String → Option String)
    (hnodup : ((nodesOf arts).map (fun n => n.id)).Nodup) :
    (dispatchIds (execute (nodesOf arts) c dur fl).events).Nodup ∧
    (∀ n : WorkNode, Event.dispatchEv n ∈ (execute (nodesOf arts) c dur fl).events →
      n ∈ nodesOf arts) ∧
    (∀ i : String,
      ((execute (nodesOf arts) c dur fl).statusOf i = NodeStatus.completed ∨
       (execute (nodesOf arts) c dur fl).statusOf i = NodeStatus.failed) →
      (dispatchIds (execute (nodesOf arts) c dur fl).events).count i = 1) := by
  obtain ⟨hinv, hhalt⟩ := final_inv (nodesOf arts) c dur fl
  have hnd : (dispatchIds (execute (nodesOf arts) c dur fl).events).Nodup := by
    rw [execute_events]
    exact dispatchIds_nodup (nodesOf arts) c fl _ hinv hnodup
  refine ⟨hnd, ?_, ?_⟩
  · intro n hn
    rw [execute_events] at hn
    exact dispatched_mem_graph (nodesOf arts) c fl _ hinv n hn
  · intro i h
    have hmem : i ∈ dispatchIds (execute (nodesOf arts) c dur fl).events := by
      rw [execute_events]
      apply hinv.runPerm.mem_iff.mpr
      rcases h with h | h
      · rw [execute_statusOf] at h
        by_cases hd : i ∈ (finalState (nodesOf arts) c dur fl).doneIds
        · simp [hd]
        · by_cases hf : i ∈ (finalState (nodesOf arts) c dur fl).failIds
          · simp [hd, hf] at h
          · by_cases hs : i ∈ skippedOf (nodesOf arts)
                (finalState (nodesOf arts) c dur fl).failIds
            · simp [hd, hf, hs] at h
            · simp [hd, hf, hs] at h
      · rw [execute_statusOf] at h
        by_cases hd : i ∈ (finalState (nodesOf arts) c dur fl).doneIds
        · simp [hd] at h
        · by_cases hf : i ∈ (finalState (nodesOf arts) c dur fl).failIds
          · simp [hf]
          · by_cases hs : i ∈ skippedOf (nodesOf arts)
                (finalState (nodesOf arts) c dur fl).failIds
            · simp [hd, hf, hs] at h
            · simp [hd, hf, hs] at h
    exact List.count_eq_one_of_mem hnd hmem

/-- Witness for C7 (amended): the hypothesis holds at the counterexample
scenario's artifact list. -/
theorem C7_at_most_once_witness :
    ((nodesOf c7Arts).map (fun n => n.id)).Nodup ∧
    (dispatchIds
      (execute (nodesOf c7Arts) 1 (testDur c7Arts) (testFail c7Arts)).events).Nodup :=
  ⟨by decide, (C7_at_most_once c7Arts 1 (testDur c7Arts) (testFail c7Arts) (by decide)).1⟩
